import Mathlib

/-!
Verification of the `code_splitter` package of the `code-navigator` repository.

The Python sources under `src/webhook-solution/src/code_splitter/` are embedded
shallowly: Python `str`/`bytes` values become `List Char` (the files under
consideration are processed byte-per-character; `encode`/`decode` with
`errors=ignore` act as the identity on this representation), tree-sitter parse
trees become the inductive `Node`, dictionaries with a fixed key set become
structures, and Python exceptions/error-dictionaries become `Except`/`Option`
results.  External collaborators (the tree-sitter parsers, `json.loads`, the
LLM description generator and the language registry holding loaded parser
objects) are passed to the embedded functions as explicit function arguments.
-/

/-- Python strings and byte buffers are modelled as lists of characters. -/
abbrev Str := List Char

/-- Membership of a character in the whitespace class used by `re`s `\s`,
`str.isspace` and `str.strip()` (the ASCII whitespace characters; the inputs
treated by the theorems below stay within this set). -/
def pyIsSpace (c : Char) : Bool :=
  c = ' ' || c = '\t' || c = '\n' || c = '\r' || c = '\x0b' || c = '\x0c'

/-- Embeds `utils.non_whitespace_len`: `len(re.sub(r"\s", "", s))`. -/
def non_whitespace_len (s : Str) : Nat :=
  (s.filter (fun c => !pyIsSpace c)).length

/-- Characters at which Python `str.splitlines` breaks a line. -/
def isLineBreak (c : Char) : Bool :=
  c = '\n' || c = '\r' || c = '\x0b' || c = '\x0c' || c = '\x1c' || c = '\x1d' ||
  c = '\x1e' || c = '\x85' || c = Char.ofNat 0x2028 || c = Char.ofNat 0x2029

/-- Worker for `pySplitlines`; `cur` holds the current line reversed. -/
def splitlinesGo (keep : Bool) (cur : Str) : Str → List Str
  | [] => if cur = [] then [] else [cur.reverse]
  | '\r' :: '\n' :: rest =>
      (cur.reverse ++ if keep then ['\r', '\n'] else []) :: splitlinesGo keep [] rest
  | c :: rest =>
      if isLineBreak c then
        (cur.reverse ++ if keep then [c] else []) :: splitlinesGo keep [] rest
      else
        splitlinesGo keep (c :: cur) rest

/-- Embeds Python `str.splitlines(keepends)`. -/
def pySplitlines (s : Str) (keepends : Bool) : List Str :=
  splitlinesGo keepends [] s

/-- Python `"".join`-style concatenation of a list of strings. -/
def strJoin (l : List Str) : Str := l.flatten

/-- Python `sep.join(l)`. -/
def strJoinSep (sep : Str) (l : List Str) : Str := List.intercalate sep l

/-- Python `s.rstrip(chars)`: drop the maximal trailing run of members of
`chars`. -/
def pyRstrip (chars : List Char) (s : Str) : Str :=
  (s.reverse.dropWhile (fun c => c ∈ chars)).reverse

/-- Python `s.lstrip(chars)`. -/
def pyLstrip (chars : List Char) (s : Str) : Str :=
  s.dropWhile (fun c => c ∈ chars)

/-- Python `s.strip()` (whitespace strip on both ends). -/
def pyStrip (s : Str) : Str :=
  ((s.dropWhile (fun c => pyIsSpace c)).reverse.dropWhile (fun c => pyIsSpace c)).reverse

/-- Python `s.strip(chars)` for an explicit character set. -/
def pyStripChars (chars : List Char) (s : Str) : Str :=
  ((s.dropWhile (fun c => c ∈ chars)).reverse.dropWhile (fun c => c ∈ chars)).reverse

/-- Python slice `s[a:b]` (with the clamping Python performs for `0 ≤ a ≤ b`). -/
def sliceStr (s : Str) (a b : Nat) : Str :=
  (s.drop a).take (b - a)

/-- Decimal digit character. -/
def digitChar (n : Nat) : Char := Char.ofNat (48 + n)

/-- Worker for `natRepr`; the fuel argument strictly dominates the number, so
`natRepr` below never exhausts it. -/
def natReprGo : Nat → Nat → Str
  | 0, _ => []
  | fuel + 1, n =>
    if n < 10 then [digitChar n] else natReprGo fuel (n / 10) ++ [digitChar (n % 10)]

/-- Decimal rendering of a natural number, as produced by a Python f-string. -/
def natRepr (n : Nat) : Str := natReprGo (n + 1) n

/-- Python `haystack.find(needle)` returning the first index at which `needle`
occurs, as an `Option` (Python returns `-1` for absence; `x in s` corresponds
to `isSome`). -/
def strFindSub (hay needle : Str) : Option Nat :=
  (List.range (hay.length + 1)).find? (fun i => needle.isPrefixOf (hay.drop i))

/-- Python `os.path.basename`: the part after the last slash. -/
def basename (p : Str) : Str :=
  (p.reverse.takeWhile (fun c => c ≠ '/')).reverse

/-- Python `s.rfind(c, start, stop)`: the largest index in `[start, stop)`
holding `c`, as an `Option`. -/
def pyRfindChar (s : Str) (c : Char) (start stop : Nat) : Option Nat :=
  ((List.range stop).filter (fun p => decide (start ≤ p) && (s.get? p == some c))).getLast?

/-- Index of the last `.` of a string, if any. -/
def lastDotIdx (b : Str) : Option Nat :=
  match b.reverse.findIdx? (fun c => c = '.') with
  | some j => some (b.length - 1 - j)
  | none => none

/-- The extension component of `os.path.splitext`: everything from the last
dot of the basename, unless that dot belongs to the leading run of dots. -/
def splitextExt (p : Str) : Str :=
  let b := basename p
  let lead := (b.takeWhile (fun c => c = '.')).length
  match lastDotIdx b with
  | some i => if lead ≤ i then b.drop i else []
  | none => []

/-- Embeds the `Span` dataclass of `span.py`: a half-open byte range. -/
structure Span where
  start : Nat
  stop : Nat
deriving DecidableEq, Repr

/-- The `Span` constructor including `__post_init__`, which forces
`end = max(start, end)`. -/
def Span.mk' (s e : Nat) : Span := ⟨s, max s e⟩

/-- Embeds `Span.extract_bytes` (with its clamping to the buffer length). -/
def Span.extract_bytes (sp : Span) (code : Str) : Str :=
  let s := min sp.start code.length
  let e := max s (min sp.stop code.length)
  sliceStr code s e

/-- Embeds `Span.__add__`: the smallest span containing both operands. -/
def Span.add (a b : Span) : Span := ⟨min a.start b.start, max a.stop b.stop⟩

/-- Embeds `Span.__len__` (`end - start`; all spans built by the code have
`start ≤ stop`, so the truncated subtraction agrees with Python). -/
def Span.len (sp : Span) : Nat := sp.stop - sp.start

/-- Shallow model of a tree-sitter syntax node.  `fieldName` is the field name
this node carries inside its parent (for `child_by_field_name`), `isNamed`
distinguishes named from anonymous nodes (for `named_children`), and
`hasError` mirrors the `has_error` flag consulted on the root. -/
inductive Node where
  | mk (type : Str) (startByte endByte : Nat) (isNamed : Bool)
       (fieldName : Option Str) (hasError : Bool) (children : List Node)

/-- The `type` attribute of a node. -/
def Node.type : Node → Str
  | .mk t _ _ _ _ _ _ => t

/-- The `start_byte` attribute of a node. -/
def Node.startByte : Node → Nat
  | .mk _ s _ _ _ _ _ => s

/-- The `end_byte` attribute of a node. -/
def Node.endByte : Node → Nat
  | .mk _ _ e _ _ _ _ => e

/-- Whether the node is a named node. -/
def Node.isNamed : Node → Bool
  | .mk _ _ _ nm _ _ _ => nm

/-- The field name the node carries in its parent. -/
def Node.fieldName : Node → Option Str
  | .mk _ _ _ _ f _ _ => f

/-- The `has_error` attribute (consulted on root nodes). -/
def Node.hasError : Node → Bool
  | .mk _ _ _ _ _ err _ => err

/-- The children of a node, in source order. -/
def Node.children : Node → List Node
  | .mk _ _ _ _ _ _ ch => ch

/-- Embeds `node.child_by_field_name(f)`. -/
def Node.childByFieldName (n : Node) (f : Str) : Option Node :=
  n.children.find? (fun c => decide (c.fieldName = some f))

/-- Embeds `node.named_children`. -/
def Node.namedChildren (n : Node) : List Node :=
  n.children.filter (fun c => c.isNamed)

/-- Embeds `node.child(i)` as an `Option`. -/
def Node.childAt (n : Node) (i : Nat) : Option Node :=
  n.children.get? i

/-- Embeds `utils.get_node_text` (and the `node.text` attribute): the byte
slice `code[start_byte:end_byte]`. -/
def get_node_text (n : Node) (code : Str) : Str :=
  sliceStr code n.startByte n.endByte

mutual

/-- Structural equality of nodes.  In a well-formed parse tree two distinct
nodes are never structurally equal, so this models the `node.id` comparisons
of the Python code. -/
def Node.beq : Node → Node → Bool
  | .mk t s e nm f err ch, .mk t2 s2 e2 nm2 f2 err2 ch2 =>
    decide (t = t2) && decide (s = s2) && decide (e = e2) && decide (nm = nm2) &&
    decide (f = f2) && decide (err = err2) && Node.beqList ch ch2

/-- Pointwise `Node.beq` on lists of children. -/
def Node.beqList : List Node → List Node → Bool
  | [], [] => true
  | a :: as, b :: bs => Node.beq a b && Node.beqList as bs
  | _, _ => false

end

/-- Embeds `utils.get_line_number`: convert a byte index to a 0-based line
number by walking the `splitlines(keepends=True)` decomposition.  (Python has
two fall-through returns, `len(lines) - 1` when `index == total_bytes` and
`max(0, len(lines) - 1)` otherwise; on `Nat` both equal `lines.length - 1`.) -/
def glnGo (index : Nat) : List Str → Nat → Nat → Option Nat
  | [], _, _ => none
  | line :: rest, total, ln =>
    let t := total + line.length
    if t > index then some ln else glnGo index rest t (ln + 1)

/-- See `glnGo`; this is `utils.get_line_number`. -/
def get_line_number (index : Nat) (source_code : Str) : Nat :=
  let lines := pySplitlines source_code true
  (glnGo index lines 0 0).getD (lines.length - 1)

/-- One entry of `language_config.LANGUAGE_NODE_TYPES`.  The `parser` field
holds the externally loaded tree-sitter parser when present (`None` models a
missing/unloadable parser); `languageName` models the `language_name` key the
splitter stores into the configuration dictionary before assembling chunks. -/
structure LanguageConfig where
  parser : Option (Str → Node)
  imports : List Str
  containers : List Str
  identifier_types : List Str
  stop_at : List Str
  blockDelimStart : Option Str
  blockDelimEnd : Option Str
  languageName : Option Str := none

/-- The `BASE_IDENTIFIER_TYPES` list of `language_config.py`. -/
def BASE_IDENTIFIER_TYPES : List Str :=
  ["identifier".toList, "type_identifier".toList, "field_identifier".toList,
   "property_identifier".toList, "variable_name".toList, "method_name".toList,
   "function_name".toList, "class_name".toList, "namespace_name".toList]

/-- The `python` entry of `LANGUAGE_NODE_TYPES`, parameterised by the
externally loaded parser object. -/
def pythonConfig (parser : Option (Str → Node)) : LanguageConfig where
  parser := parser
  imports := ["import_statement".toList, "import_from_statement".toList]
  containers := ["class_definition".toList, "function_definition".toList]
  identifier_types := BASE_IDENTIFIER_TYPES ++ ["dotted_name".toList]
  stop_at := ["module".toList]
  blockDelimStart := some [':']
  blockDelimEnd := none

mutual

/-- See `descendantChain`; descends into the first child whose byte range
strictly contains `b`. -/
def descendantChainFrom : Node → Nat → List Node
  | .mk t s e nm f err ch, b => Node.mk t s e nm f err ch :: descendantChainChildren ch b

/-- Child scan of `descendantChainFrom`. -/
def descendantChainChildren : List Node → Nat → List Node
  | [], _ => []
  | c :: rest, b =>
    if c.startByte ≤ b ∧ b < c.endByte then descendantChainFrom c b
    else descendantChainChildren rest b

end

/-- Embeds `root.descendant_for_byte_range(b, b)`, returning the whole chain
root-to-target (the target is the last element; the Python code recovers
parents via `node.parent`, which the chain makes available). -/
def descendantChain (root : Node) (b : Nat) : Option (List Node) :=
  if root.startByte ≤ b ∧ b ≤ root.endByte then some (descendantChainFrom root b) else none

mutual

/-- Embeds `byte_span_creation._chunk_tree_recursive`. -/
def chunk_tree_recursive (node : Node) (MAX_CHARS : Nat) : List Span :=
  match node with
  | .mk _ nodeStart nodeEnd _ _ _ children =>
    let st := ctrChildren children MAX_CHARS nodeStart nodeStart []
    let chunks := st.1
    let cs := st.2.1
    let ce := st.2.2
    let _ := ce
    if nodeEnd > cs then
      match chunks.getLast? with
      | none => chunks ++ [Span.mk' cs nodeEnd]
      | some lastc =>
          if lastc.stop ≤ cs then chunks ++ [Span.mk' cs nodeEnd]
          else
            let adjusted := max cs lastc.stop
            if nodeEnd > adjusted then chunks ++ [Span.mk' adjusted nodeEnd] else chunks
    else chunks

/-- The child loop of `_chunk_tree_recursive`; the state is
`(chunks, current_chunk_start, current_chunk_end)`. -/
def ctrChildren (children : List Node) (MAX_CHARS : Nat) (cs ce : Nat)
    (acc : List Span) : List Span × Nat × Nat :=
  match children with
  | [] => (acc, cs, ce)
  | child :: rest =>
    let childLen := child.endByte - child.startByte
    if childLen = 0 then ctrChildren rest MAX_CHARS cs ce acc
    else if childLen > MAX_CHARS then
      let flushed := if ce > cs then acc ++ [Span.mk' cs ce] else acc
      let acc2 := flushed ++ chunk_tree_recursive child MAX_CHARS
      ctrChildren rest MAX_CHARS child.endByte child.endByte acc2
    else if child.endByte - cs > MAX_CHARS then
      let flushed := if ce > cs then acc ++ [Span.mk' cs ce] else acc
      ctrChildren rest MAX_CHARS child.startByte child.endByte flushed
    else
      let cs2 := if ce = cs then child.startByte else cs
      ctrChildren rest MAX_CHARS cs2 (max ce child.endByte) acc

end

/-- The gap-filling loop of `create_byte_spans` (step 2).  Returns the filled
list together with the final `current_pos`. -/
def fillGapsGo : List Span → Nat → List Span × Nat
  | [], pos => ([], pos)
  | c :: rest, pos =>
    let gaps := if c.start > pos then [Span.mk' pos c.start] else []
    let safe := max pos c.start
    if c.stop > safe then
      let r := fillGapsGo rest c.stop
      (gaps ++ [Span.mk' safe c.stop] ++ r.1, r.2)
    else if c.stop = safe ∧ c.start = c.stop then
      let r := fillGapsGo rest c.stop
      (gaps ++ r.1, r.2)
    else
      let r := fillGapsGo rest pos
      (gaps ++ r.1, r.2)

/-- Steps 2 of `create_byte_spans`: fill the gaps between the recursive chunks
over the root range, appending the final trailing gap. -/
def filledChunks (rootStart rootEnd : Nat) (byteChunks : List Span) : List Span :=
  let r := fillGapsGo byteChunks rootStart
  r.1 ++ (if rootEnd > r.2 then [Span.mk' r.2 rootEnd] else [])

/-- The `should_combine` decision of the coalescing loop.  Python compares
`combined_byte_len < MAX_CHARS * 1.5` and `current_non_ws < coalesce / 2` with
exact binary floats; for natural inputs these are equivalent to the integer
comparisons used here. -/
def shouldCombine (source : Str) (MAX_CHARS coalesce : Nat) (cur next : Span) : Bool :=
  let currentText := cur.extract_bytes source
  let currentNonWs := non_whitespace_len currentText
  if currentNonWs < coalesce then
    if 2 * (cur.len + next.len) < 3 * MAX_CHARS then
      let combinedText := (cur.add next).extract_bytes source
      let currentNl := currentText.count '\n'
      let combinedNl := combinedText.count '\n'
      decide ((combinedNl : Int) - (currentNl : Int) < 3) ||
        decide (2 * currentNonWs < coalesce)
    else false
  else false

/-- The coalescing loop of `create_byte_spans` (step 3); `cur` is the chunk
being accumulated. -/
def coalesceGo (source : Str) (MAX_CHARS coalesce : Nat) : Span → List Span → List Span
  | cur, [] => [cur]
  | cur, next :: rest =>
    if shouldCombine source MAX_CHARS coalesce cur next then
      coalesceGo source MAX_CHARS coalesce (cur.add next) rest
    else cur :: coalesceGo source MAX_CHARS coalesce next rest

/-- The final post-filter of `create_byte_spans`: keep spans of positive
length and with some non-whitespace content. -/
def keepSpan (source : Str) (sp : Span) : Bool :=
  decide (0 < sp.len) && decide (0 < non_whitespace_len (sp.extract_bytes source))

/-- The pre-filter stages of `create_byte_spans` (recursive chunking, the
empty-result fallbacks, gap filling, and coalescing), i.e. everything except
the final whitespace post-filter. -/
def coalescedSpans (root : Node) (source : Str) (MAX_CHARS coalesce : Nat) : List Span :=
  let byteChunks := chunk_tree_recursive root MAX_CHARS
  if byteChunks = [] then
    if root.endByte > root.startByte then [Span.mk' root.startByte root.endByte] else []
  else
    let filled0 := filledChunks root.startByte root.endByte byteChunks
    let filled :=
      if filled0 = [] ∧ root.endByte > root.startByte then [Span.mk' root.startByte root.endByte]
      else filled0
    match filled with
    | [] => []
    | first :: rest => coalesceGo source MAX_CHARS coalesce first rest

/-- Embeds `byte_span_creation.create_byte_spans` (the `tree`/`root_node`
null-checks live at the caller, which passes the root node).  Note that the
early return taken when the recursive chunking produces nothing bypasses both
the coalescing stage and the whitespace post-filter, exactly as in the
source. -/
def create_byte_spans (root : Node) (source : Str) (MAX_CHARS coalesce : Nat) : List Span :=
  let byteChunks := chunk_tree_recursive root MAX_CHARS
  if byteChunks = [] then
    if root.endByte > root.startByte then [Span.mk' root.startByte root.endByte] else []
  else
    (coalescedSpans root source MAX_CHARS coalesce).filter (keepSpan source)

/-- The metadata dictionary attached to a chunk.  The first five fields are
the file-level metadata assembled by `split_code`; the remaining fields are
added per chunk (fields a given chunking mode leaves absent are `none`). -/
structure Metadata where
  file_path : Str
  language : Str
  repo : Str
  branch : Str
  chunking_method : Str
  start_line : Option Nat := none
  end_line : Option Nat := none
  chunk_id : Str := []
  chunk_index : Option Nat := none
  relational_description : Str := []
  cell_type : Option Str := none
  original_cell_index : Option Nat := none
deriving DecidableEq, Repr

/-- A chunk record as passed between the chunking stages (the union of the
keys produced by `assemble_chunk_data`, `chunk_by_lines` and
`chunk_notebook_cells`; components a mode does not produce are defaulted). -/
structure ChunkOut where
  content : Str
  metadata : Metadata
  import_lines : List Str := []
  parent_context_spans : List (Nat × Nat) := []
  parent_context_text : List Str := []
  chunk_span_1_based : Option (Nat × Nat) := none
  byte_span : Option Span := none
deriving DecidableEq, Repr

/-- The file-path normalisation performed identically in
`assemble_chunk_data` and `chunk_by_lines`: keep the path from the first
occurrence of the repository name onwards, else fall back to
`"<repo>/<basename>"`. -/
def normalizeFilePath (original_file_path repo_name : Str) : Str :=
  match strFindSub original_file_path repo_name with
  | some repoIndex => original_file_path.drop repoIndex
  | none => repo_name ++ ['/'] ++ basename original_file_path

/-- A child is structurally smaller than its parent node. -/
theorem sizeOf_child_lt {c n : Node} (h : c ∈ n.children) : sizeOf c < sizeOf n := by
  cases n with
  | mk t s e nm f err ch =>
    have h1 : sizeOf c < sizeOf ch := List.sizeOf_lt_of_mem (by simpa [Node.children] using h)
    simp only [Node.mk.sizeOf_spec]
    omega

mutual

/-- See `find_all_import_nodes`; traversal that does not descend into
non-root containers unless they are import types themselves. -/
def collectImportNodes (cfg : LanguageConfig) : Bool → Node → List Node
  | isRoot, .mk t s e nm f err ch =>
    let n := Node.mk t s e nm f err ch
    let here := if n.type ∈ cfg.imports then [n] else []
    let blocked := n.type ∈ cfg.containers ∧ ¬isRoot ∧ n.type ∉ cfg.imports
    here ++ (if blocked then [] else collectImportNodesList cfg ch)

/-- Child traversal of `collectImportNodes`. -/
def collectImportNodesList (cfg : LanguageConfig) : List Node → List Node
  | [] => []
  | c :: rest => collectImportNodes cfg false c ++ collectImportNodesList cfg rest

end

/-- Stable insertion of a node into a list sorted by `start_byte`. -/
def insertByStart (n : Node) : List Node → List Node
  | [] => [n]
  | m :: r => if m.startByte ≤ n.startByte then m :: insertByStart n r else n :: m :: r

/-- Stable sort by `start_byte` (Python `list.sort(key=start_byte)`; the two
agree whenever start bytes are distinct, which holds for the sibling import
nodes of the trees considered here). -/
def sortByStart (l : List Node) : List Node :=
  l.foldl (fun acc x => insertByStart x acc) []

/-- The text de-duplication loop of `find_all_import_nodes`: keep the first
node for each distinct stripped text. -/
def dedupByText (code : Str) (seen : List Str) : List Node → List Node × List Str
  | [] => ([], [])
  | n :: rest =>
    let t := pyStrip (get_node_text n code)
    if t ≠ [] ∧ t ∉ seen then
      let r := dedupByText code (t :: seen) rest
      (n :: r.1, t :: r.2)
    else
      dedupByText code seen rest

/-- Embeds `context_extraction.find_all_import_nodes`. -/
def find_all_import_nodes (root : Node) (cfg : LanguageConfig) (code : Str) :
    List Node × List Str :=
  if cfg.imports = [] then ([], [])
  else
    let sorted := sortByStart (collectImportNodes cfg true root)
    let r := dedupByText code [] sorted
    let import_lines := pySplitlines (strJoinSep ['\n'] r.2) false
    (r.1, import_lines)

/-- The upward walk of `extract_chunk_context`: `parentsAbove` lists the
ancestors of the chunk-defining node from the immediate parent up to the root
(`current.parent is None` corresponds to the end of the list).  Collects the
container ancestors, stopping after a stop-type (or `comment`) node. -/
def contextWalk (containers stops : List Str) : List Node → List Node
  | [] => []
  | cur :: rest =>
    let here := if cur.type ∈ containers then [cur] else []
    if cur.type ∈ stops ∨ rest.isEmpty then here else here ++ contextWalk containers stops rest

/-- Signature end byte for an ancestor container, per `extract_chunk_context`:
the start of the `body` field if present, else the position just after the
first block-start delimiter in the first 500 bytes, else the node end. -/
def signatureEndByte (cfg : LanguageConfig) (code : Str) (anc : Node) : Nat :=
  match anc.childByFieldName ("body".toList) with
  | some bodyNode => bodyNode.startByte
  | none =>
    match cfg.blockDelimStart with
    | some startDelim =>
      let headerTextFull := sliceStr code anc.startByte (min anc.endByte (anc.startByte + 500))
      match strFindSub headerTextFull startDelim with
      | some delimPos => anc.startByte + (delimPos + startDelim.length)
      | none => anc.endByte
    | none => anc.endByte

/-- Name resolution for a container node, per `extract_chunk_context` and the
matching fallback in `assemble_chunk_data`: the `name` field, else the second
child when it is an `identifier`/`type_identifier`. -/
def containerNameNode (n : Node) : Option Node :=
  match n.childByFieldName ("name".toList) with
  | some nameNode => some nameNode
  | none =>
    if n.children.length > 1 then
      match n.childAt 1 with
      | some potential =>
          if potential.type = "identifier".toList ∨ potential.type = "type_identifier".toList
          then some potential else none
      | none => none
    else none

/-- The per-ancestor loop of `extract_chunk_context`, producing the kept
ancestor nodes, their 1-based signature line spans, and the description
fragments.  `processed` holds the already-seen ancestors (id de-duplication). -/
def ancestorLoop (cfg : LanguageConfig) (code source_str : Str) (definingNode : Node)
    (processed : List Node) :
    List Node → List Node × List (Nat × Nat) × List Str
  | [] => ([], [], [])
  | anc :: rest =>
    if Node.beq anc definingNode ∨ processed.any (fun p => Node.beq anc p) then
      ancestorLoop cfg code source_str definingNode processed rest
    else
      let sigEnd := signatureEndByte cfg code anc
      let sigStartLine := get_line_number anc.startByte source_str + 1
      let sigEndLine := get_line_number sigEnd source_str + 1
      let nameText := (containerNameNode anc).map (fun nn => get_node_text nn code)
      let desc :=
        match nameText with
        | some nm =>
          if nm ≠ [] then anc.type ++ " \x27".toList ++ nm ++ "\x27".toList else anc.type
        | none => anc.type
      let r := ancestorLoop cfg code source_str definingNode (anc :: processed) rest
      (anc :: r.1, (sigStartLine, sigEndLine) :: r.2.1, desc :: r.2.2)

/-- Embeds `context_extraction.extract_chunk_context`.  The Python function
receives nodes with parent pointers; here `parentsAbove` carries the ancestor
chain of `chunk_defining_node` (immediate parent first, root last), which is
the same information. -/
def extract_chunk_context (chunk_start_node : Option Node) (chunk_defining_node : Node)
    (parentsAbove : List Node) (cfg : LanguageConfig) (code source_str : Str)
    (last_global_context_end_line : Int) :
    List Node × List (Nat × Nat) × Str :=
  let _ := last_global_context_end_line
  let stops := cfg.stop_at ++ ["comment".toList]
  if chunk_start_node.isNone ∨ cfg.containers = [] then ([], [], "Code chunk".toList)
  else
    let foundAncestors := (contextWalk cfg.containers stops parentsAbove).reverse
    let r := ancestorLoop cfg code source_str chunk_defining_node [] foundAncestors
    let names := r.2.2
    let description :=
      if names ≠ [] then "Chunk within ".toList ++ strJoinSep " -> ".toList names
      else if foundAncestors.isEmpty then "Top-level code chunk".toList
      else "Code chunk".toList
    (r.1, r.2.1, description)

/-- The node types treated as member accesses by
`import_filtering._find_identifiers_in_span`. -/
def memberAccessTypes : List Str := ["member_expression".toList, "attribute".toList]

/-- The object-part contribution of a member-access node. -/
def memberObjectTexts (cfg : LanguageConfig) (code : Str) (n : Node) : List Str :=
  match n.childByFieldName ("object".toList) with
  | some objectNode =>
    if objectNode.type ∈ cfg.identifier_types then
      let t := get_node_text objectNode code
      if t ≠ [] ∧ ¬(t.all (fun c => pyIsSpace c)) then [t] else []
    else []
  | none => []

/-- The property-part contribution of a member-access node. -/
def memberPropertyTexts (cfg : LanguageConfig) (code : Str) (n : Node) : List Str :=
  let propertyNode :=
    (n.childByFieldName ("property".toList)).orElse (fun _ =>
      (n.childByFieldName ("attribute".toList)).orElse (fun _ =>
        n.childByFieldName ("field".toList)))
  match propertyNode with
  | some p =>
    let t := get_node_text p code
    let keep := t ≠ [] ∧ ¬(t.all (fun c => pyIsSpace c))
    if p.type ∈ cfg.identifier_types then (if keep then [t] else [])
    else if p.type = "identifier".toList then (if keep then [t] else [])
    else []
  | none => []

mutual

/-- See `find_identifiers_in_span`: prune subtrees outside the span, record
identifier-typed nodes and member-access parts, recurse into overlapping
children. -/
def identGo (cfg : LanguageConfig) (code : Str) (start_byte end_byte : Nat) :
    Node → List Str
  | .mk t s e nm f err ch =>
    let n := Node.mk t s e nm f err ch
    if n.startByte ≥ end_byte ∨ n.endByte ≤ start_byte then []
    else
      let nsis := max n.startByte start_byte
      let neis := min n.endByte end_byte
      let contrib :=
        if nsis < neis then
          (if n.type ∈ cfg.identifier_types then
            let tx := get_node_text n code
            if tx ≠ [] ∧ ¬(tx.all (fun c => pyIsSpace c)) then [tx] else []
          else []) ++
          (if n.type ∈ memberAccessTypes then
            memberObjectTexts cfg code n ++ memberPropertyTexts cfg code n
          else [])
        else []
      contrib ++ identGoList cfg code start_byte end_byte ch

/-- Child traversal of `identGo` (children that do not overlap the span are
skipped, mirroring the enqueue condition of the source BFS; the guard at the
head of `identGo` makes the two filters equivalent). -/
def identGoList (cfg : LanguageConfig) (code : Str) (start_byte end_byte : Nat) :
    List Node → List Str
  | [] => []
  | c :: rest =>
    (if c.endByte > start_byte ∧ c.startByte < end_byte
     then identGo cfg code start_byte end_byte c else []) ++
      identGoList cfg code start_byte end_byte rest

end

/-- Embeds `import_filtering._find_identifiers_in_span` (identifier texts are
returned as a list; only membership is ever consulted, matching the Python
set). -/
def find_identifiers_in_span (root : Node) (start_byte end_byte : Nat)
    (cfg : LanguageConfig) (code : Str) : List Str :=
  if start_byte ≥ end_byte then []
  else
    match descendantChain root start_byte with
    | none => []
    | some chain =>
      match chain.getLast? with
      | none => []
      | some startNode => identGo cfg code start_byte end_byte startNode

/-- Python `s.split(c)` for a single-character separator (no collapsing of
empty fields; the result is always non-empty). -/
def pySplitChar (c : Char) (s : Str) : List Str :=
  let r := s.foldr (fun ch acc =>
    match acc with
    | [] => [[ch]]
    | cur :: rest => if ch = c then [] :: cur :: rest else (ch :: cur) :: rest) [[]]
  r

/-- Worker for `pySplitSub` with explicit fuel (the fuel is always
sufficient, as each step removes at least one character). -/
def pySplitSubGo (sep : Str) : Nat → Str → List Str
  | 0, s => [s]
  | fuel + 1, s =>
    match strFindSub s sep with
    | some i => s.take i :: pySplitSubGo sep fuel (s.drop (i + sep.length))
    | none => [s]

/-- Python `s.split(sep)` for a multi-character separator. -/
def pySplitSub (sep : Str) (s : Str) : List Str :=
  if sep = [] then [s] else pySplitSubGo sep (s.length + 1) s

/-- The binding-extraction chain of `import_filtering._filter_imports_for_chunk`
(step 1): the set of names an import node introduces into scope, following the
source's `if`/`elif` chain on `import_node.type` verbatim (later arms shadowed
by earlier ones, such as the Java/Go `import_declaration` arms, are kept and
are dead here exactly as in the source). -/
def imported_names_in_node (importNode : Node) (code : Str) : List Str :=
  let t := importNode.type
  if t = "import_statement".toList then
    (importNode.namedChildren.map (fun nameNode =>
      if nameNode.type = "dotted_name".toList then
        match nameNode.childAt 0 with
        | some firstIdentifier =>
          if firstIdentifier.type = "identifier".toList
          then [get_node_text firstIdentifier code] else []
        | none => []
      else if nameNode.type = "aliased_import".toList then
        match nameNode.childByFieldName ("alias".toList) with
        | some aliasNode => [get_node_text aliasNode code]
        | none => []
      else if nameNode.type = "identifier".toList then [get_node_text nameNode code]
      else [])).flatten
  else if t = "import_from_statement".toList then
    let namesContainer := importNode.children.find? (fun c =>
      decide (c.type = "import_list".toList) || decide (c.type = "wildcard_import".toList))
    match namesContainer with
    | some nc =>
      if nc.type = "wildcard_import".toList then [['*']]
      else if nc.type = "import_list".toList then
        (nc.children.map (fun itemNode =>
          if itemNode.type = "aliased_import".toList then
            match itemNode.childByFieldName ("alias".toList) with
            | some aliasPart => [get_node_text aliasPart code]
            | none =>
              match itemNode.childByFieldName ("name".toList) with
              | some namePart => [get_node_text namePart code]
              | none => []
          else if itemNode.type = "identifier".toList ∨ itemNode.type = "dotted_name".toList
          then [get_node_text itemNode code]
          else [])).flatten
      else []
    | none => []
  else if t = "import_statement".toList ∨ t = "import_declaration".toList then
    (importNode.namedChildren.map (fun child =>
      if child.type = "import_clause".toList then
        (match child.childByFieldName ("default".toList) with
         | some defaultImport => [get_node_text defaultImport code]
         | none => []) ++
        (match child.childByFieldName ("named_imports".toList) with
         | some namedImports =>
           (namedImports.namedChildren.map (fun importSpecifier =>
             if importSpecifier.type = "import_specifier".toList then
               match importSpecifier.childByFieldName ("alias".toList) with
               | some al => [get_node_text al code]
               | none =>
                 match importSpecifier.childByFieldName ("name".toList) with
                 | some nm => [get_node_text nm code]
                 | none => []
             else [])).flatten
         | none => []) ++
        (match child.childByFieldName ("namespace_import".toList) with
         | some namespaceImport =>
           match namespaceImport.childByFieldName ("name".toList) with
           | some nm => [get_node_text nm code]
           | none => []
         | none => [])
      else [])).flatten
  else if t = "lexical_declaration".toList then
    (importNode.namedChildren.map (fun declaration =>
      if declaration.type = "variable_declarator".toList then
        match declaration.childByFieldName ("name".toList),
              declaration.childByFieldName ("value".toList) with
        | some nm, some v =>
          if v.type = "call_expression".toList then
            match v.childByFieldName ("function".toList) with
            | some functionName =>
              if get_node_text functionName code = "require".toList
              then [get_node_text nm code] else []
            | none => []
          else []
        | _, _ => []
      else [])).flatten
  else if t = "import_declaration".toList then
    match importNode.childByFieldName ("name".toList) with
    | some nm =>
      let qualifiedName := get_node_text nm code
      match lastDotIdx qualifiedName with
      | some lastDot => [qualifiedName.drop (lastDot + 1)]
      | none => [qualifiedName]
    | none => []
  else if t = "preproc_include".toList then
    match importNode.childByFieldName ("path".toList) with
    | some path =>
      let headerPath := get_node_text path code
      let headerName :=
        pyStripChars ['<', '>', '"']
          (((pySplitChar '.' ((pySplitChar '/' headerPath).getLast?.getD [])).headD []))
      if headerName ≠ [] then [headerName] else []
    | none => []
  else if t = "preproc_def".toList then
    match importNode.childByFieldName ("name".toList) with
    | some nm => [get_node_text nm code]
    | none => []
  else if t = "import_declaration".toList then
    (importNode.namedChildren.map (fun spec =>
      if spec.type = "import_spec".toList then
        match spec.childByFieldName ("name".toList) with
        | some nm => [get_node_text nm code]
        | none =>
          match spec.childByFieldName ("path".toList) with
          | some path =>
            let packagePath := pyStripChars ['"'] (get_node_text path code)
            [(pySplitChar '/' packagePath).getLast?.getD []]
          | none => []
      else [])).flatten
  else if t = "require_statement".toList ∨ t = "load_statement".toList then
    match importNode.childAt 1 with
    | some argument =>
      let modulePath := pyStripChars ['"', Char.ofNat 39] (get_node_text argument code)
      [(pySplitChar '.' ((pySplitChar '/' modulePath).getLast?.getD [])).headD []]
    | none => []
  else if t = "use_declaration".toList then
    (match importNode.childByFieldName ("path".toList) with
     | some treePath =>
       let segments := pySplitSub "::".toList (get_node_text treePath code)
       if segments ≠ [] then [segments.getLast?.getD []] else []
     | none => []) ++
    (match importNode.namedChildren.find? (fun c => decide (c.type = "use_tree_list".toList)) with
     | some useTreeList =>
       (useTreeList.namedChildren.map (fun useTree =>
         if useTree.type = "use_tree".toList then
           match useTree.childByFieldName ("path".toList) with
           | some p => [get_node_text p code]
           | none => []
         else [])).flatten
     | none => [])
  else if t = "use_declaration".toList then
    (importNode.namedChildren.map (fun clause =>
      if clause.type = "use_clause".toList then
        match clause.childByFieldName ("alias".toList) with
        | some al => [get_node_text al code]
        | none =>
          match clause.childByFieldName ("name".toList) with
          | some nm =>
            let qualifiedName := get_node_text nm code
            match (qualifiedName.reverse.findIdx? (fun c => c = '\\')) with
            | some j => [qualifiedName.drop (qualifiedName.length - 1 - j + 1)]
            | none => [qualifiedName]
          | none => []
      else [])).flatten
  else if t = "include_expression".toList ∨ t = "require_expression".toList then [['*']]
  else []

/-- The per-node bindings used by the import filter: nodes whose type is not a
configured import type contribute no names (the `continue` in the source). -/
def importBindings (cfg : LanguageConfig) (code : Str) (all_import_nodes : List Node) :
    List (List Str) :=
  all_import_nodes.map (fun nd =>
    if nd.type ∈ cfg.imports then imported_names_in_node nd code else [])

/-- Embeds `import_filtering._filter_imports_for_chunk`.  The
`defaultdict(set)` mapping names to line indices is represented by the indexed
`importBindings`; `sorted(relevant_line_indices)` is realised by filtering
`List.range` (the indices a node can contribute equal its position in
`all_import_nodes`, as in the source's id-based lookup table). -/
def filter_imports_for_chunk (all_import_lines : List Str) (all_import_nodes : List Node)
    (chunk_byte_span : Nat × Nat) (root : Node) (cfg : LanguageConfig) (code : Str) :
    List Str :=
  let bindings := importBindings cfg code all_import_nodes
  let used := find_identifiers_in_span root chunk_byte_span.1 chunk_byte_span.2 cfg code
  let hasWildcard := bindings.any (fun b => decide ('*'::[] ∈ b))
  let bound := max all_import_nodes.length all_import_lines.length
  let relevantSorted := (List.range bound).filter (fun i =>
    if hasWildcard then
      decide ('*'::[] ∈ bindings.getD i []) || decide (i < all_import_lines.length)
    else (bindings.getD i []).any (fun nm => decide (nm ∈ used)))
  relevantSorted.map (fun i => all_import_lines.getD i [])

/-- Specification-side statement of the non-wildcard import filter, following
the specification text: keep exactly those import lines at least one of whose
bound names occurs in the identifier set of the chunk span, in original file
order (lines and nodes are walked in lockstep). -/
def importFilterSpec (used : List Str) (cfg : LanguageConfig) (code : Str) :
    List Str → List Node → List Str
  | line :: lines, nd :: nds =>
    (if (if nd.type ∈ cfg.imports then imported_names_in_node nd code else []).any
        (fun nm => decide (nm ∈ used)) = true then [line] else []) ++
      importFilterSpec used cfg code lines nds
  | _, _ => []

/-- The upward walk of `assemble_chunk_data` locating the true chunk-defining
node: starting from the content start node (head of the reversed chain), step
to the parent while it is a container type encompassing the whole span.
Returns the number of steps taken. -/
def definingWalk (spanStart spanStop : Nat) (containers : List Str) : List Node → Nat
  | cur :: parent :: rest =>
    let _ := cur
    if parent.type ∈ containers ∧ parent.startByte ≤ spanStart ∧ parent.endByte ≥ spanStop
    then 1 + definingWalk spanStart spanStop containers (parent :: rest)
    else 0
  | _ => 0

/-- The start-node lookup of `assemble_chunk_data`: the descendant chain for
the first non-whitespace byte of the span, with the fallback lookup at the
span start. -/
def chunkChain (byte_span : Span) (root_node : Node) (code_bytes : Str) :
    Option (List Node) :=
  let original_chunk_text := byte_span.extract_bytes code_bytes
  let first_char_offset :=
    (original_chunk_text.findIdx? (fun ch => !pyIsSpace ch)).map (fun idx => byte_span.start + idx)
  let chain0 :=
    match first_char_offset with
    | some fo => descendantChain root_node fo
    | none => none
  match chain0 with
  | some c => some c
  | none => descendantChain root_node byte_span.start

/-- The final description refinement of `assemble_chunk_data` (its trailing
`if not ancestor_nodes` block): with no parent context, a nonempty
filtered import list wins, then a container-typed content start node, else the
top-level fallback. -/
def refineDescription (metadata0 : Metadata) (ancestor_nodes : List Node)
    (filtered_import_lines : List Str) (content_start_node : Node)
    (language_config : LanguageConfig) (code_bytes : Str) : Metadata :=
  if ancestor_nodes.isEmpty then
    if filtered_import_lines ≠ [] then
      { metadata0 with relational_description := "Chunk containing primarily imports".toList }
    else if content_start_node.type ∈ language_config.containers then
      let chunk_name := (containerNameNode content_start_node).map
        (fun nn => get_node_text nn code_bytes)
      match chunk_name with
      | some nm =>
        if nm ≠ [] then
          { metadata0 with relational_description :=
              "Top-level ".toList ++ content_start_node.type ++ " \x27".toList ++
              nm ++ "\x27".toList }
        else
          { metadata0 with relational_description :=
              "Top-level ".toList ++ content_start_node.type }
      | none =>
        { metadata0 with relational_description :=
            "Top-level ".toList ++ content_start_node.type }
    else
      { metadata0 with relational_description := "Top-level code chunk".toList }
  else metadata0

/-- Embeds `chunk_assembly.assemble_chunk_data` (the unused `tree` parameter
of the source is omitted; parent pointers are recovered from the descendant
chain). -/
def assemble_chunk_data (byte_span : Span) (root_node : Node)
    (language_config : LanguageConfig) (code_bytes source_str : Str)
    (original_code_lines : List Str) (base_metadata : Metadata)
    (all_import_nodes : List Node) (all_import_lines : List Str)
    (last_global_context_end_line : Int) (chunk_index : Nat) : Option ChunkOut :=
  let original_chunk_text := byte_span.extract_bytes code_bytes
  let start_line := get_line_number byte_span.start source_str
  let end_line := get_line_number byte_span.stop source_str
  if non_whitespace_len original_chunk_text < 5 then none
  else
    let normalized_file_path := normalizeFilePath base_metadata.file_path base_metadata.repo
    let modified_metadata := { base_metadata with file_path := normalized_file_path }
    match chunkChain byte_span root_node code_bytes with
    | none => none
    | some chainL =>
      match chainL.getLast? with
      | none => none
      | some content_start_node =>
        let revChain := chainL.reverse
        let steps := definingWalk byte_span.start byte_span.stop language_config.containers revChain
        let true_chunk_defining_node := revChain.getD steps content_start_node
        let parentsAbove := revChain.drop (steps + 1)
        let ctx := extract_chunk_context (some content_start_node) true_chunk_defining_node
          parentsAbove language_config code_bytes source_str last_global_context_end_line
        let ancestor_nodes := ctx.1
        let parent_context_spans := ctx.2.1
        let relational_description := ctx.2.2
        let filtered_import_lines := filter_imports_for_chunk all_import_lines all_import_nodes
          (byte_span.start, byte_span.stop) root_node language_config code_bytes
        let chunk_span_1_based := (start_line + 1, end_line + 1)
        let metadata0 : Metadata := { modified_metadata with
          language := language_config.languageName.getD ("unknown".toList),
          start_line := some (start_line + 1),
          end_line := some (end_line + 1),
          chunk_id := normalized_file_path ++ "-L".toList ++ natRepr (start_line + 1) ++
            "-L".toList ++ natRepr (end_line + 1),
          relational_description := relational_description,
          chunk_index := some chunk_index }
        let metadata := refineDescription metadata0 ancestor_nodes filtered_import_lines
          content_start_node language_config code_bytes
        let parent_context_text := parent_context_spans.map (fun ls =>
          let start_idx := ls.1 - 1
          let end_idx := ls.2
          if 1 ≤ ls.1 ∧ start_idx < end_idx ∧ end_idx ≤ original_code_lines.length then
            strJoinSep ['\n'] ((original_code_lines.drop start_idx).take (end_idx - start_idx))
          else
            "[Error: Invalid line numbers (".toList ++ natRepr ls.1 ++ ", ".toList ++
              natRepr ls.2 ++ ")]".toList)
        some { content := original_chunk_text, metadata := metadata,
               import_lines := filtered_import_lines,
               parent_context_spans := parent_context_spans,
               parent_context_text := parent_context_text,
               chunk_span_1_based := some chunk_span_1_based,
               byte_span := some byte_span }

/-- The per-span assembly loop of `process_code_for_rag` (stage 3): the chunk
index is incremented only for spans that produce a record. -/
def assembleLoop (byte_spans : List Span) (root : Node) (cfg : LanguageConfig)
    (code source_str : Str) (original_code_lines : List Str) (base_metadata : Metadata)
    (all_import_nodes : List Node) (all_import_lines : List Str)
    (last_gcel : Int) (chunk_index : Nat) : List ChunkOut :=
  match byte_spans with
  | [] => []
  | sp :: rest =>
    match assemble_chunk_data sp root cfg code source_str original_code_lines base_metadata
      all_import_nodes all_import_lines last_gcel chunk_index with
    | some cd => cd :: assembleLoop rest root cfg code source_str original_code_lines
        base_metadata all_import_nodes all_import_lines last_gcel (chunk_index + 1)
    | none => assembleLoop rest root cfg code source_str original_code_lines
        base_metadata all_import_nodes all_import_lines last_gcel chunk_index

/-- The whitespace-handoff pass of `process_code_for_rag`, written as a
recursion carrying the whitespace handed to the next record (the source's
in-place pair loop computes exactly this). -/
def adjustWhitespaceGo (pending : Str) : List ChunkOut → List ChunkOut
  | [] => []
  | [lastRec] => [{ lastRec with content := pending ++ lastRec.content }]
  | cur :: next :: rest =>
    let c := pending ++ cur.content
    let stripped := pyRstrip [' ', '\t'] c
    let trailing := c.drop stripped.length
    { cur with content := stripped } :: adjustWhitespaceGo trailing (next :: rest)

/-- The whitespace-handoff pass applied to the assembled records. -/
def adjust_whitespace (l : List ChunkOut) : List ChunkOut :=
  adjustWhitespaceGo [] l

/-- The kind of value found under the `source` key of a notebook cell. -/
inductive NbSource where
  | strSource (s : Str)
  | listSource (l : List Str)
  | otherSource

/-- A (well-shaped) notebook cell: the values of `cell.get("cell_type")` and
`cell.get("source")`. -/
structure NbCell where
  cell_type : Option Str
  source : NbSource

/-- A parsed notebook object: the value of `notebook_json.get("cells", [])`.
`json.loads` is modelled as an external function `Str → Option NotebookJson`
(`none` standing for a `JSONDecodeError`). -/
structure NotebookJson where
  cells : List NbCell

/-- The cell-content normalisation of `chunk_notebook_cells` (list sources are
joined, non-string sources become the empty string). -/
def nbCellContent : NbSource → Str
  | .listSource l => strJoin l
  | .strSource s => s
  | .otherSource => []

/-- The end position of one slice of the large-cell splitting loop of
`chunk_notebook_cells`: at most `max_chars` characters, but cut just after a
newline found in the latter part of the window. -/
def nbSliceEnd (cell_content : Str) (max_chars start : Nat) : Nat :=
  let e := min (start + max_chars) cell_content.length
  match pyRfindChar cell_content '\n' start e with
  | some newline_pos => if newline_pos > start + max_chars / 4 then newline_pos + 1 else e
  | none => e

/-- The `while start < cell_len` loop of `chunk_notebook_cells`, with explicit
fuel; `none` models non-termination within the given fuel (which cannot occur
for `max_chars ≥ 1` and fuel `cell_len - start`, as proved below). -/
def nbSplitGo (cell_content : Str) (max_chars : Nat) (cellMetaBase : Metadata)
    (file_path : Str) (idx : Nat) : Nat → Nat → Nat → Option (List ChunkOut)
  | 0, start, _ => if start < cell_content.length then none else some []
  | fuel + 1, start, sub_chunk_index =>
    if start < cell_content.length then
      let e := nbSliceEnd cell_content max_chars start
      let sub_content := sliceStr cell_content start e
      let chunk_id := file_path ++ "-cell".toList ++ natRepr idx ++ ['-'] ++
        natRepr sub_chunk_index
      let start_line_in_cell := (cell_content.take start).count '\n' + 1
      let end_line_in_cell := (cell_content.take e).count '\n' + 1
      let md := { cellMetaBase with
        chunk_id := chunk_id,
        start_line := some start_line_in_cell,
        end_line := some end_line_in_cell }
      let here : List ChunkOut :=
        if pyStrip sub_content ≠ [] then [{ content := sub_content, metadata := md }] else []
      (nbSplitGo cell_content max_chars cellMetaBase file_path idx fuel e
        (sub_chunk_index + 1)).map (fun r => here ++ r)
    else some []

/-- Embeds `notebook_chunking.chunk_notebook_cells`.  The `json.loads` result
is taken as an argument (`none` = `JSONDecodeError`, handled by returning the
empty list, as in the source). -/
def chunk_notebook_cells (parsed : Option NotebookJson) (file_metadata : Metadata)
    (max_chars : Nat) : List ChunkOut :=
  match parsed with
  | none => []
  | some nb =>
    ((nb.cells.enum.map (fun p =>
      let idx := p.1
      let cell := p.2
      let cell_content := nbCellContent cell.source
      let cell_len := cell_content.length
      let cellMetaBase := { file_metadata with
        language := "Jupyter Notebook".toList,
        cell_type := cell.cell_type,
        original_cell_index := some idx }
      if pyStrip cell_content = [] then []
      else if cell_len ≤ max_chars then
        let chunk_id := file_metadata.file_path ++ "-cell".toList ++ natRepr idx ++ "-0".toList
        let end_line := cell_content.count '\n' + 1
        [{ content := cell_content,
           metadata := { cellMetaBase with
             chunk_id := chunk_id,
             start_line := some 1,
             end_line := some end_line } }]
      else
        (nbSplitGo cell_content max_chars cellMetaBase file_metadata.file_path idx
          cell_len 0 0).getD [])).flatten)

/-- One record emitted by the windowing loop of
`fallback_chunking.chunk_by_lines`. -/
def lineChunkRecord (lines : List Str) (total_lines chunk_size : Nat)
    (modified_metadata : Metadata) (normalized_file_path : Str)
    (start_line_idx chunk_index : Nat) : ChunkOut :=
  let end_line_idx := min (start_line_idx + chunk_size) total_lines
  let chunk_lines := (lines.drop start_line_idx).take (end_line_idx - start_line_idx)
  let chunk_content := strJoin chunk_lines
  let metadata_start_line := start_line_idx + 1
  let metadata_end_line := end_line_idx
  let chunk_metadata := { modified_metadata with
    chunk_index := some chunk_index,
    start_line := some metadata_start_line,
    end_line := some metadata_end_line,
    chunking_method := "line-based".toList,
    chunk_id := normalized_file_path ++ "-L".toList ++ natRepr metadata_start_line ++
      "-L".toList ++ natRepr metadata_end_line,
    relational_description := "Line-based code chunk".toList }
  { content := chunk_content, metadata := chunk_metadata }

/-- The windowing loop of `fallback_chunking.chunk_by_lines`, with explicit
fuel (always sufficient at the call site, where the fuel is the number of
lines and the step is positive). -/
def chunkByLinesGo (lines : List Str) (total_lines chunk_size step : Nat)
    (modified_metadata : Metadata) (normalized_file_path : Str) :
    Nat → Nat → Nat → List ChunkOut
  | 0, _, _ => []
  | fuel + 1, start_line_idx, chunk_index =>
    if start_line_idx < total_lines then
      let end_line_idx := min (start_line_idx + chunk_size) total_lines
      let chunk_lines := (lines.drop start_line_idx).take (end_line_idx - start_line_idx)
      if chunk_lines = [] then []
      else
        lineChunkRecord lines total_lines chunk_size modified_metadata
            normalized_file_path start_line_idx chunk_index ::
          chunkByLinesGo lines total_lines chunk_size step modified_metadata
            normalized_file_path fuel (start_line_idx + step) (chunk_index + 1)
    else []

/-- Embeds `fallback_chunking.chunk_by_lines` (`chunk_size ≤ 0` can only be
`chunk_size = 0` on `Nat`, and `overlap < 0` cannot occur; the error list
`[{"error": ...}]` returned for an invalid overlap becomes `Except.error`,
which the callers treat identically). -/
def chunk_by_lines (code_content : Str) (file_metadata : Metadata)
    (chunk_size : Nat := 40) (overlap : Nat := 15) : Except Str (List ChunkOut) :=
  if code_content = [] then .ok []
  else
    let lines := pySplitlines code_content true
    let total_lines := lines.length
    if chunk_size = 0 then .ok []
    else if overlap ≥ chunk_size then .error ("Invalid overlap value.".toList)
    else
      let normalized_file_path := normalizeFilePath file_metadata.file_path file_metadata.repo
      let modified_metadata := { file_metadata with file_path := normalized_file_path }
      .ok (chunkByLinesGo lines total_lines chunk_size (chunk_size - overlap)
        modified_metadata normalized_file_path total_lines 0 0)

/-- Embeds `splitter.process_code_for_rag`.  The language registry (holding
the externally loaded parser objects) and the JSON parser are explicit
arguments; the `{"error": ..., "traceback": ...}` return value becomes
`Except.error` (no code path of the embedded pipeline raises). -/
def process_code_for_rag (LANGUAGE_NODE_TYPES : Str → Option LanguageConfig)
    (parseNotebookJson : Str → Option NotebookJson)
    (code_content : Str) (language_name : Str) (file_metadata : Metadata)
    (MAX_CHARS : Nat := 1500) (coalesce : Nat := 100) : Except Str (List ChunkOut) :=
  if pyStrip code_content = [] then .ok []
  else if language_name = "Jupyter Notebook".toList then
    .ok (chunk_notebook_cells (parseNotebookJson code_content) file_metadata MAX_CHARS)
  else
    match LANGUAGE_NODE_TYPES language_name with
    | none => chunk_by_lines code_content file_metadata
    | some language_config0 =>
      match language_config0.parser with
      | none => chunk_by_lines code_content file_metadata
      | some parser =>
        let language_config := { language_config0 with languageName := some language_name }
        let encoded_code := code_content
        let tree := parser encoded_code
        if tree.hasError then chunk_by_lines code_content file_metadata
        else
          let root_node := tree
          let source_str := encoded_code
          let original_code_lines := pySplitlines source_str false
          let byte_spans0 := create_byte_spans root_node encoded_code MAX_CHARS coalesce
          let byte_spans :=
            if byte_spans0 = [] ∧ pyStrip code_content ≠ [] then
              [Span.mk' 0 encoded_code.length]
            else byte_spans0
          if byte_spans = [] then .ok []
          else
            let r := find_all_import_nodes root_node language_config encoded_code
            let all_import_nodes := r.1
            let all_import_lines := r.2
            let last_global_context_end_line : Int :=
              match all_import_nodes.getLast? with
              | some lastNode => (get_line_number lastNode.endByte source_str : Int)
              | none => -1
            let chunks := assembleLoop byte_spans root_node language_config encoded_code
              source_str original_code_lines file_metadata all_import_nodes all_import_lines
              last_global_context_end_line 0
            .ok (adjust_whitespace chunks)

/-- The `PLACEHOLDER_TEXT` constant of `chunk_formatting.py`. -/
def PLACEHOLDER_TEXT : Str := "#... some code ...".toList

/-- A serialized chunk record as produced by `format_chunk_data`. -/
structure StructuredChunk where
  formatted_chunk_block : Str
  original_content : Str
  metadata : Metadata
deriving DecidableEq, Repr

/-- The placeholder-consolidation loop of `format_chunk_data` (skip empty
strings and collapse consecutive placeholders). -/
def consolidateParts (parts : List Str) : List Str :=
  parts.foldl (fun final_parts part =>
    if part = [] then final_parts
    else if part = PLACEHOLDER_TEXT ∧ final_parts ≠ [] ∧
        final_parts.getLast?.getD [] = PLACEHOLDER_TEXT then final_parts
    else final_parts ++ [part]) []

/-- The per-chunk block construction of `format_chunk_data`. -/
def formatChunkBlock (c : ChunkOut) (include_tokens : Bool) : Str :=
  let imports := strJoinSep ['\n'] c.import_lines
  let content_for_comparison := pyLstrip ['\n'] c.content
  let processed_parent_list :=
    if c.parent_context_text ≠ [] ∧ content_for_comparison ≠ [] then
      let last_parent_block := c.parent_context_text.getLast?.getD []
      let first_line_of_last_parent := pyStrip ((pySplitlines last_parent_block false).headD [])
      let first_content_line := pyStrip ((pySplitlines content_for_comparison false).headD [])
      if first_line_of_last_parent ≠ [] ∧ first_line_of_last_parent = first_content_line
      then c.parent_context_text.dropLast
      else c.parent_context_text
    else c.parent_context_text
  let parent_context :=
    if processed_parent_list ≠ []
    then strJoinSep ("\n#... some code ...\n".toList) processed_parent_list
    else []
  let content_to_format := pyLstrip ['\n'] c.content
  if include_tokens then
    let fully_tagged_parts :=
      (if imports ≠ [] then
        ["<<IMPORTS_START>>\n".toList ++ imports ++ "\n<<IMPORTS_END>>".toList] else []) ++
      (if parent_context ≠ [] then
        ["<<PARENT_CONTEXT_START>>\n".toList ++ parent_context ++
         "\n<<PARENT_CONTEXT_END>>".toList] else []) ++
      (if pyStrip c.content ≠ [] then
        ["<<ORIGINAL_CHUNK_START>>\n".toList ++ content_to_format ++
         "\n<<ORIGINAL_CHUNK_END>>".toList] else [])
    strJoinSep "\n\n".toList fully_tagged_parts
  else
    let intermediate_parts :=
      (if imports ≠ [] then [PLACEHOLDER_TEXT, imports, PLACEHOLDER_TEXT] else []) ++
      (if parent_context ≠ [] then [PLACEHOLDER_TEXT, parent_context, PLACEHOLDER_TEXT]
       else []) ++
      (if pyStrip c.content ≠ [] then [PLACEHOLDER_TEXT, content_to_format, PLACEHOLDER_TEXT]
       else [])
    let blanked :=
      match intermediate_parts with
      | [] => []
      | _first :: rest =>
        let l := ([] : Str) :: rest
        if l.length > 1 then l.dropLast ++ [([] : Str)] else l
    strJoinSep ['\n'] (consolidateParts blanked)

/-- Embeds `chunk_formatting.format_chunk_data`.  (The `byte_span` deletion
from the output metadata is a no-op: `byte_span` is a chunk-level component,
never a metadata key.) -/
def format_chunk_data (chunk_data_list : List ChunkOut) (include_tokens : Bool := true) :
    Str × List StructuredChunk :=
  let blocks := chunk_data_list.map (fun c => formatChunkBlock c include_tokens)
  let structured := chunk_data_list.map (fun c =>
    { formatted_chunk_block := formatChunkBlock c include_tokens,
      original_content := c.content,
      metadata := c.metadata : StructuredChunk })
  let separator := "\n\n========== CHUNK SEPARATOR ==========\n\n".toList
  (strJoinSep separator blocks, structured)

/-- Lookup in an association list of strings (Python `dict.get` for the
literal dictionaries of `language_mapping.py`, whose keys are distinct). -/
def assocGet (l : List (Str × Str)) (k : Str) : Option Str :=
  (l.find? (fun kv => decide (kv.1 = k))).map (fun kv => kv.2)

/-- The `EXTENSION_TO_LANGUAGE` table of `language_mapping.py`. -/
def EXTENSION_TO_LANGUAGE : List (Str × Str) :=
  [(".py".toList, "python".toList), (".pyw".toList, "python".toList),
   (".js".toList, "javascript".toList), (".jsx".toList, "javascript".toList),
   (".mjs".toList, "javascript".toList), (".ts".toList, "typescript".toList),
   (".tsx".toList, "tsx".toList),
   (".java".toList, "java".toList), (".groovy".toList, "groovy".toList),
   (".gvy".toList, "groovy".toList), (".gradle".toList, "groovy".toList),
   (".kt".toList, "kotlin".toList), (".scala".toList, "scala".toList),
   (".cpp".toList, "c++".toList), (".cc".toList, "c++".toList),
   (".cxx".toList, "c++".toList), (".c".toList, "c".toList),
   (".h".toList, "c".toList), (".hpp".toList, "c++".toList),
   (".cs".toList, "c#".toList),
   (".go".toList, "go".toList), (".rb".toList, "ruby".toList),
   (".php".toList, "php".toList), (".rs".toList, "rust".toList),
   (".swift".toList, "swift".toList), (".html".toList, "html".toList),
   (".htm".toList, "html".toList), (".css".toList, "css".toList),
   (".less".toList, "less".toList), (".json".toList, "json".toList),
   (".yaml".toList, "yaml".toList), (".yml".toList, "yaml".toList),
   (".md".toList, "markdown".toList), (".sh".toList, "shell".toList),
   (".bash".toList, "shell".toList), (".zsh".toList, "shell".toList),
   (".jl".toList, "julia".toList), (".hack".toList, "hack".toList),
   (".hh".toList, "hack".toList), (".hcl".toList, "hcl".toList),
   (".tf".toList, "hcl".toList), (".pl".toList, "perl".toList),
   (".pm".toList, "perl".toList), (".ps1".toList, "powershell".toList),
   (".psm1".toList, "powershell".toList), (".psd1".toList, "powershell".toList),
   (".pug".toList, "pug".toList), (".jade".toList, "pug".toList),
   (".odin".toList, "odin".toList), (".ipynb".toList, "Jupyter Notebook".toList),
   (".mmd".toList, "mermaid".toList), (".mermaid".toList, "mermaid".toList),
   (".sql".toList, "sql".toList), (".psql".toList, "sql".toList),
   (".tsql".toList, "sql".toList), (".pgsql".toList, "sql".toList),
   (".plsql".toList, "sql".toList), (".aspx".toList, "ASP.NET".toList),
   (".ascx".toList, "ASP.NET".toList), (".ashx".toList, "ASP.NET".toList),
   (".asmx".toList, "ASP.NET".toList), (".asp".toList, "Classic ASP".toList),
   (".bat".toList, "Batchfile".toList), (".cmd".toList, "Batchfile".toList),
   (".hbs".toList, "Handlebars".toList), (".handlebars".toList, "Handlebars".toList),
   (".mustache".toList, "Mustache".toList), (".pde".toList, "Processing".toList),
   (".as".toList, "ActionScript".toList), (".mdx".toList, "MDX".toList),
   (".lkml".toList, "LookML".toList), (".view.lkml".toList, "LookML".toList),
   (".prg".toList, "Harbour".toList), (".awk".toList, "Awk".toList),
   (".feature".toList, "Gherkin".toList), (".ejs".toList, "EJS".toList),
   (".cls".toList, "Apex".toList), (".apex".toList, "Apex".toList),
   (".nsi".toList, "NSIS".toList)]

/-- The `KNOWN_FILENAMES` table of `language_mapping.py`. -/
def KNOWN_FILENAMES : List (Str × Str) :=
  [("dockerfile".toList, "dockerfile".toList), ("makefile".toList, "makefile".toList),
   ("procfile".toList, "Procfile".toList), ("jenkinsfile".toList, "groovy".toList),
   ("vagrantfile".toList, "ruby".toList), ("gemfile".toList, "ruby".toList),
   ("rakefile".toList, "ruby".toList), ("brewfile".toList, "ruby".toList)]

/-- Embeds `language_mapping.get_language_from_extension`. -/
def get_language_from_extension (file_path : Str) : Option Str :=
  if file_path = [] then none
  else
    let filename := (basename file_path).map Char.toLower
    match assocGet KNOWN_FILENAMES filename with
    | some lang => some lang
    | none =>
      match KNOWN_FILENAMES.find? (fun kv => (kv.1 ++ ['.']).isPrefixOf filename) with
      | some kv => some kv.2
      | none => assocGet EXTENSION_TO_LANGUAGE ((splitextExt file_path).map Char.toLower)

/-- The `DEFAULT_MAX_CHARS` constant of `processor.py`. -/
def DEFAULT_MAX_CHARS : Nat := 1500

/-- The `DEFAULT_COALESCE` constant of `processor.py`. -/
def DEFAULT_COALESCE : Nat := 200

/-- The `DEFAULT_FALLBACK_CHUNK_SIZE` constant of `processor.py`. -/
def DEFAULT_FALLBACK_CHUNK_SIZE : Nat := 40

/-- The `DEFAULT_FALLBACK_OVERLAP` constant of `processor.py`. -/
def DEFAULT_FALLBACK_OVERLAP : Nat := 15

/-- Embeds `processor.split_code`.  The registry, the notebook JSON parser and
the LLM description generator are external collaborators passed as arguments;
the trailing parameters carry the source's default values.  The result is the
tri-tuple `(full_formatted_text, structured_data_list, error_message)`. -/
def split_code (LANGUAGE_NODE_TYPES : Str → Option LanguageConfig)
    (parseNotebookJson : Str → Option NotebookJson)
    (generate_descriptions_for_chunks : List ChunkOut → List ChunkOut)
    (code_content : Str)
    (language_name : Option Str := none)
    (file_path : Str := "unknown_file".toList)
    (repo_name : Option Str := none)
    (branch_name : Option Str := none)
    (max_chars : Nat := DEFAULT_MAX_CHARS)
    (coalesce : Nat := DEFAULT_COALESCE)
    (include_tokens : Bool := false)
    (generate_descriptions : Bool := false) :
    Option Str × Option (List StructuredChunk) × Option Str :=
  let det : Option Str × Bool × Str :=
    match language_name with
    | some ln =>
      if (LANGUAGE_NODE_TYPES ln).isSome then (some ln, false, "tree-sitter".toList)
      else (none, true, "line-based".toList)
    | none => (none, false, "tree-sitter".toList)
  let det2 :=
    if det.1.isNone ∧ ¬det.2.1 then
      if file_path ≠ [] ∧ file_path ≠ "unknown_file".toList then
        match get_language_from_extension file_path with
        | some inferred =>
          if (LANGUAGE_NODE_TYPES inferred).isSome then
            (some inferred, false, "tree-sitter".toList)
          else (none, true, "line-based".toList)
        | none => (none, true, "line-based".toList)
      else (none, true, "line-based".toList)
    else det
  let determined_language := det2.1
  let use_fallback := det2.2.1
  let chunking_method := det2.2.2
  let effective_language := determined_language.getD ("plaintext".toList)
  let file_metadata : Metadata := {
    file_path := file_path,
    language := effective_language,
    repo := repo_name.getD ("unknown_repo".toList),
    branch := branch_name.getD ("unknown_branch".toList),
    chunking_method := chunking_method }
  let chunk_components_list : Option (Except Str (List ChunkOut)) :=
    if use_fallback then
      some (chunk_by_lines code_content file_metadata DEFAULT_FALLBACK_CHUNK_SIZE
        DEFAULT_FALLBACK_OVERLAP)
    else
      match determined_language with
      | some dl => some (process_code_for_rag LANGUAGE_NODE_TYPES parseNotebookJson
          code_content dl file_metadata max_chars coalesce)
      | none => none
  match chunk_components_list with
  | none => (none, none, some ("Internal error: Could not determine chunking method.".toList))
  | some (.error e) => (none, none, some ("Chunking failed: ".toList ++ e))
  | some (.ok l) =>
    if l = [] then (some [], some [], none)
    else
      let l2 := if generate_descriptions ∧ l ≠ [] then generate_descriptions_for_chunks l else l
      let fr := format_chunk_data l2 include_tokens
      (some fr.1, some fr.2, none)

/-- `IsTiling l a b` states that the spans of `l` tile the byte interval
`[a, b)` contiguously and in order (each span starts where the previous one
stopped). -/
def IsTiling : List Span → Nat → Nat → Prop
  | [], a, b => a = b
  | sp :: rest, a, b => sp.start = a ∧ a ≤ sp.stop ∧ IsTiling rest sp.stop b

/-- A chunk record with its content removed (used to state that a pass leaves
every component other than `content` unchanged). -/
def eraseContent (c : ChunkOut) : ChunkOut := { c with content := [] }

/-- Convenience constructor for literal tree-sitter nodes. -/
def mkN (t : String) (s e : Nat) (named : Bool) (f : Option String) (ch : List Node) : Node :=
  Node.mk t.toList s e named (f.map String.toList) false ch

/-- The source text of spec scenario S1 (`foo.py`). -/
def s1src : Str :=
  "import os\n\ndef greet(name):\n    return f\"hi \x7bname\x7d\"\n".toList

/-- The tree-sitter parse tree of scenario S1, transcribed from the
tree-sitter-python grammar. -/
def s1root : Node :=
  mkN "module" 0 52 true none
    [mkN "import_statement" 0 9 true none
      [mkN "import" 0 6 false none [],
       mkN "dotted_name" 7 9 true (some "name") [mkN "identifier" 7 9 true none []]],
     mkN "function_definition" 11 51 true none
      [mkN "def" 11 14 false none [],
       mkN "identifier" 15 20 true (some "name") [],
       mkN "parameters" 20 26 true (some "parameters")
         [mkN "(" 20 21 false none [], mkN "identifier" 21 25 true none [],
          mkN ")" 25 26 false none []],
       mkN ":" 26 27 false none [],
       mkN "block" 32 51 true (some "body")
         [mkN "return_statement" 32 51 true none
           [mkN "return" 32 38 false none [],
            mkN "string" 39 51 true none
              [mkN "string_start" 39 41 false none [],
               mkN "string_content" 41 44 true none [],
               mkN "interpolation" 44 50 true none
                 [mkN "\x7b" 44 45 false none [], mkN "identifier" 45 49 true none [],
                  mkN "\x7d" 49 50 false none []],
               mkN "string_end" 50 51 false none []]]]]]

/-- The file metadata of scenario S1. -/
def s1meta : Metadata :=
  { file_path := "org/repo/foo.py".toList, language := "python".toList,
    repo := "org/repo".toList, branch := "main".toList,
    chunking_method := "tree-sitter".toList }

/-- A language registry holding only `python`, whose parser returns the S1
tree. -/
def s1reg : Str → Option LanguageConfig := fun l =>
  if l = "python".toList then some (pythonConfig (some (fun _ => s1root))) else none

/-- A one-line Python file with two statements (`aa=11;bb=22`). -/
def twoStmtSrc : Str := "aa=11;bb=22\n".toList

/-- The parse tree of `twoStmtSrc` (tree-sitter-python). -/
def twoStmtRoot : Node :=
  mkN "module" 0 12 true none
    [mkN "expression_statement" 0 5 true none
      [mkN "assignment" 0 5 true none
        [mkN "identifier" 0 2 true (some "left") [],
         mkN "=" 2 3 false none [],
         mkN "integer" 3 5 true (some "right") []]],
     mkN ";" 5 6 false none [],
     mkN "expression_statement" 6 11 true none
      [mkN "assignment" 6 11 true none
        [mkN "identifier" 6 8 true (some "left") [],
         mkN "=" 8 9 false none [],
         mkN "integer" 9 11 true (some "right") []]]]

/-- File metadata for `twoStmtSrc`. -/
def twoStmtMeta : Metadata :=
  { file_path := "r/f.py".toList, language := "python".toList,
    repo := "r".toList, branch := "b".toList, chunking_method := "tree-sitter".toList }

/-- A registry whose python parser returns `twoStmtRoot`. -/
def twoStmtReg : Str → Option LanguageConfig := fun l =>
  if l = "python".toList then some (pythonConfig (some (fun _ => twoStmtRoot))) else none

/-- A tiny Python file (`ab`) whose single chunk falls below the
five-non-whitespace-character significance threshold. -/
def tinySrc : Str := "ab\n".toList

/-- The parse tree of `tinySrc`. -/
def tinyRoot : Node :=
  mkN "module" 0 3 true none
    [mkN "expression_statement" 0 2 true none [mkN "identifier" 0 2 true none []]]

/-- A registry whose python parser returns `tinyRoot`. -/
def tinyReg : Str → Option LanguageConfig := fun l =>
  if l = "python".toList then some (pythonConfig (some (fun _ => tinyRoot))) else none

/-- Source with two imports and a use of `os.path` (for the import filter). -/
def impSrc : Str := "import os\nimport sys\nos.path\n".toList

/-- First import node of `impSrc` (`import os`). -/
def impNode1 : Node :=
  mkN "import_statement" 0 9 true none
    [mkN "import" 0 6 false none [],
     mkN "dotted_name" 7 9 true (some "name") [mkN "identifier" 7 9 true none []]]

/-- Second import node of `impSrc` (`import sys`). -/
def impNode2 : Node :=
  mkN "import_statement" 10 20 true none
    [mkN "import" 10 16 false none [],
     mkN "dotted_name" 17 20 true (some "name") [mkN "identifier" 17 20 true none []]]

/-- The parse tree of `impSrc`. -/
def impRoot : Node :=
  mkN "module" 0 29 true none
    [impNode1, impNode2,
     mkN "expression_statement" 21 28 true none
      [mkN "attribute" 21 28 true none
        [mkN "identifier" 21 23 true (some "object") [],
         mkN "." 23 24 false none [],
         mkN "identifier" 24 28 true (some "attribute") []]]]

/-- A wildcard import node (`from utils import *`) over `wildSrc`. -/
def wildSrc : Str := "from utils import *\n".toList

/-- The `import_from_statement` node of `wildSrc`. -/
def wildNode : Node :=
  mkN "import_from_statement" 0 19 true none
    [mkN "from" 0 4 false none [],
     mkN "dotted_name" 5 10 true (some "module_name") [mkN "identifier" 5 10 true none []],
     mkN "import" 11 17 false none [],
     mkN "wildcard_import" 18 19 true none []]

/-- The parse tree of `wildSrc`. -/
def wildRoot : Node := mkN "module" 0 20 true none [wildNode]

/-- A 100-line text (each line `x\n`) for the fallback-windowing scenario S5. -/
def hundredLines : Str := strJoin (List.replicate 100 ("x\n".toList))

/-- Plaintext file metadata for the fallback scenarios. -/
def plainMeta : Metadata :=
  { file_path := "r/readme.xyz".toList, language := "plaintext".toList,
    repo := "r".toList, branch := "b".toList, chunking_method := "line-based".toList }

mutual

/-- Decidable well-formedness of a parse tree: byte ranges are ordered and
children stay within their parent's end (the only structural facts the span
theorems need; every real tree-sitter tree satisfies this). -/
def nodeWF : Node → Bool
  | .mk t s e nm f err ch =>
    let _ := (t, nm, f, err)
    decide (s ≤ e) && nodeWFChildren e ch

/-- Child check of `nodeWF`. -/
def nodeWFChildren (bound : Nat) : List Node → Bool
  | [] => true
  | c :: rest => decide (c.endByte ≤ bound) && nodeWF c && nodeWFChildren bound rest

end

/-- A two-record list whose first content carries trailing whitespace (input
for the whitespace-handoff witness). -/
def lC3 : List ChunkOut :=
  [{ content := "a \t".toList, metadata := plainMeta },
   { content := "b".toList, metadata := plainMeta }]

theorem strJoin_nil : strJoin [] = [] := rfl

theorem strJoin_cons (x : Str) (xs : List Str) : strJoin (x :: xs) = x ++ strJoin xs := by
  simp [strJoin]

/-- C7, counterexample.  The default of the `coalesce` parameter of
`split_code` is the constant `DEFAULT_COALESCE` of `processor.py`, whose value
is `200`, not the `100` stated by the claim. -/
theorem c7_counterexample : DEFAULT_COALESCE = 200 ∧ ¬(DEFAULT_COALESCE = 100) := by
  constructor <;> decide

/-- C7 (amended): `split_code` defaults `max_chars` to `DEFAULT_MAX_CHARS =
1500` and `coalesce` to `DEFAULT_COALESCE = 200`, and always returns a
tri-tuple `(full_formatted_text, structured_chunks, error_message)`. -/
theorem c7_amended_defaults :
    DEFAULT_MAX_CHARS = 1500 ∧ DEFAULT_COALESCE = 200 ∧
    (∀ reg pnb dg code lang fp rp bn it gd,
      split_code reg pnb dg code lang fp rp bn DEFAULT_MAX_CHARS DEFAULT_COALESCE it gd =
        split_code reg pnb dg code lang fp rp bn 1500 200 it gd) ∧
    (∀ reg pnb dg code lang fp rp bn mc co it gd, ∃ a b c,
      split_code reg pnb dg code lang fp rp bn mc co it gd = (a, b, c)) := by
  refine ⟨rfl, rfl, fun _ _ _ _ _ _ _ _ _ _ => rfl,
    fun reg pnb dg code lang fp rp bn mc co it gd => ⟨_, _, _, rfl⟩⟩

/-- C8: a notebook whose content fails JSON parsing yields the empty chunk
list as a successful (non-error) result of `process_code_for_rag`. -/
theorem c8_invalid_notebook_json (LANGUAGE_NODE_TYPES : Str → Option LanguageConfig)
    (parseNotebookJson : Str → Option NotebookJson) (code_content : Str)
    (file_metadata : Metadata) (MAX_CHARS coalesce : Nat)
    (h : parseNotebookJson code_content = none) :
    process_code_for_rag LANGUAGE_NODE_TYPES parseNotebookJson code_content
      ("Jupyter Notebook".toList) file_metadata MAX_CHARS coalesce = .ok [] := by
  unfold process_code_for_rag
  rw [h]
  split
  · rfl
  · rw [if_pos rfl]
    rfl

/-- C8, witness at a concrete invalid notebook. -/
theorem c8_invalid_notebook_json_witness :
    process_code_for_rag (fun _ => none) (fun _ => none) ("not json".toList)
      ("Jupyter Notebook".toList) plainMeta 2000 100 = .ok [] :=
  c8_invalid_notebook_json (fun _ => none) (fun _ => none) ("not json".toList)
    plainMeta 2000 100 rfl

theorem nbSliceEnd_gt (cell : Str) (maxc start : Nat) (hm : 1 ≤ maxc)
    (hs : start < cell.length) : start < nbSliceEnd cell maxc start := by
  simp only [nbSliceEnd]
  rcases h2 : pyRfindChar cell '\n' start (min (start + maxc) cell.length) with _ | p
  · show start < min (start + maxc) cell.length
    omega
  · show start < if p > start + maxc / 4 then p + 1 else min (start + maxc) cell.length
    split
    · omega
    · omega

theorem nbSplitGo_isSome (cell : Str) (maxc : Nat) (md : Metadata) (fp : Str) (idx : Nat)
    (hm : 1 ≤ maxc) :
    ∀ fuel start sub, cell.length - start ≤ fuel →
      (nbSplitGo cell maxc md fp idx fuel start sub).isSome := by
  intro fuel
  induction fuel with
  | zero =>
    intro start sub h
    unfold nbSplitGo
    rw [if_neg (by omega)]
    simp
  | succ fuel ih =>
    intro start sub h
    unfold nbSplitGo
    by_cases hs : start < cell.length
    · rw [if_pos hs]
      have h3 : (nbSplitGo cell maxc md fp idx fuel (nbSliceEnd cell maxc start)
          (sub + 1)).isSome := by
        apply ih
        have := nbSliceEnd_gt cell maxc start hm hs
        omega
      rcases hrec : nbSplitGo cell maxc md fp idx fuel (nbSliceEnd cell maxc start) (sub + 1)
        with _ | v
      · rw [hrec] at h3
        simp at h3
      · simp only [hrec, Option.map_some']
        rfl
    · rw [if_neg hs]
      simp

/-- C10: the large-cell splitting loop of `chunk_notebook_cells` terminates
for `max_chars ≥ 1`: every slice strictly advances the start position, so fuel
`cell_len - start` always suffices; with `max_chars = 0` and a non-empty cell
the slice end does not advance (the precondition is necessary). -/
theorem c10_notebook_termination :
    (∀ (cell : Str) (maxc start : Nat), 1 ≤ maxc → start < cell.length →
      start < nbSliceEnd cell maxc start) ∧
    (∀ (cell : Str) (maxc : Nat) (md : Metadata) (fp : Str) (idx start sub : Nat),
      1 ≤ maxc →
      (nbSplitGo cell maxc md fp idx (cell.length - start) start sub).isSome) ∧
    nbSliceEnd ("ab".toList) 0 0 = 0 :=
  ⟨fun cell maxc start hm hs => nbSliceEnd_gt cell maxc start hm hs,
   fun cell maxc md fp idx start sub hm =>
     nbSplitGo_isSome cell maxc md fp idx hm (cell.length - start) start sub (Nat.le_refl _),
   by decide⟩

/-- C10, witness: the advance and termination facts at a concrete cell. -/
theorem c10_notebook_termination_witness :
    (0 < nbSliceEnd ("abcdefgh".toList) 5 0) ∧
    (nbSplitGo ("abcdefgh".toList) 5 plainMeta ("f".toList) 0
      (("abcdefgh".toList).length - 0) 0 0).isSome :=
  ⟨c10_notebook_termination.1 ("abcdefgh".toList) 5 0 (by decide) (by decide),
   c10_notebook_termination.2.1 ("abcdefgh".toList) 5 plainMeta ("f".toList) 0 0 0 (by decide)⟩

theorem chunkByLinesGo_spec (lines : List Str) (cs step : Nat) (md : Metadata) (np : Str)
    (hcs : 0 < cs) (hstep : 0 < step) :
    ∀ fuel start idx, lines.length ≤ start + fuel * step →
      (∀ k, k < (chunkByLinesGo lines lines.length cs step md np fuel start idx).length ↔
        start + k * step < lines.length) ∧
      (∀ k (hk : k < (chunkByLinesGo lines lines.length cs step md np fuel start idx).length),
        (chunkByLinesGo lines lines.length cs step md np fuel start idx).get ⟨k, hk⟩ =
          lineChunkRecord lines lines.length cs md np (start + k * step) (idx + k)) := by
  intro fuel
  induction fuel with
  | zero =>
    intro start idx h
    simp only [Nat.zero_mul, Nat.add_zero] at h
    have hres : chunkByLinesGo lines lines.length cs step md np 0 start idx = [] := rfl
    rw [hres]
    refine ⟨fun k => ?_, fun k hk => ?_⟩
    · simp only [List.length_nil]
      constructor
      · omega
      · intro hlt
        have hk0 : 0 ≤ k * step := Nat.zero_le _
        omega
    · simp at hk
  | succ fuel ih =>
    intro start idx h
    have e0 : (fuel + 1) * step = fuel * step + step := by ring
    by_cases hs : start < lines.length
    · have hne : (lines.drop start).take (min (start + cs) lines.length - start) ≠ [] := by
        have hlen : ((lines.drop start).take (min (start + cs) lines.length - start)).length =
            min (min (start + cs) lines.length - start) (lines.length - start) := by
          simp [List.length_take, List.length_drop]
        intro hnil
        rw [hnil] at hlen
        simp only [List.length_nil] at hlen
        omega
      have hrec : chunkByLinesGo lines lines.length cs step md np (fuel + 1) start idx =
          lineChunkRecord lines lines.length cs md np start idx ::
            chunkByLinesGo lines lines.length cs step md np fuel (start + step) (idx + 1) := by
        rw [chunkByLinesGo]
        rw [if_pos hs]
        rw [if_neg hne]
      have ihr := ih (start + step) (idx + 1) (by omega)
      rw [hrec]
      refine ⟨fun k => ?_, fun k hk => ?_⟩
      · cases k with
        | zero => simpa using hs
        | succ k =>
          simp only [List.length_cons, Nat.succ_lt_succ_iff]
          rw [ihr.1 k]
          have e1 : (k + 1) * step = k * step + step := by ring
          omega
      · cases k with
        | zero => simp
        | succ k =>
          have hk2 : k < (chunkByLinesGo lines lines.length cs step md np fuel
              (start + step) (idx + 1)).length := by
            simpa using hk
          have hg := ihr.2 k hk2
          simp only [List.get_cons_succ]
          rw [hg]
          have e1 : (k + 1) * step = k * step + step := by ring
          congr 1
          · omega
          · omega
    · have hrec : chunkByLinesGo lines lines.length cs step md np (fuel + 1) start idx = [] := by
        rw [chunkByLinesGo]
        rw [if_neg hs]
      rw [hrec]
      refine ⟨fun k => ?_, fun k hk => ?_⟩
      · simp only [List.length_nil]
        constructor
        · omega
        · intro hlt
          have hk0 : 0 ≤ k * step := Nat.zero_le _
          omega
      · simp at hk

/-- C9: with the default fallback parameters (`chunk_size = 40`,
`overlap = 15`) on a non-empty input, `chunk_by_lines` emits exactly the line
windows `[i, min(i+40, n))` for `i = 0, 25, 50, …`, each with 1-based
`start_line = i+1`, `end_line = min(i+40, n)`, content equal to the joined
window lines, `chunk_index` counting from 0, and
`chunking_method = "line-based"`. -/
theorem c9_fallback_windows (code_content : Str) (file_metadata : Metadata)
    (h : code_content ≠ []) :
    ∃ l, chunk_by_lines code_content file_metadata 40 15 = .ok l ∧
      (∀ k, k < l.length ↔ 25 * k < (pySplitlines code_content true).length) ∧
      (∀ k (hk : k < l.length),
        (l.get ⟨k, hk⟩).metadata.start_line = some (25 * k + 1) ∧
        (l.get ⟨k, hk⟩).metadata.end_line =
          some (min (25 * k + 40) (pySplitlines code_content true).length) ∧
        (l.get ⟨k, hk⟩).metadata.chunking_method = "line-based".toList ∧
        (l.get ⟨k, hk⟩).metadata.chunk_index = some k ∧
        (l.get ⟨k, hk⟩).content = strJoin (((pySplitlines code_content true).drop (25 * k)).take
          (min (25 * k + 40) (pySplitlines code_content true).length - 25 * k))) := by
  have hres : chunk_by_lines code_content file_metadata 40 15 =
      .ok (chunkByLinesGo (pySplitlines code_content true)
        (pySplitlines code_content true).length 40 25
        { file_metadata with
          file_path := normalizeFilePath file_metadata.file_path file_metadata.repo }
        (normalizeFilePath file_metadata.file_path file_metadata.repo)
        (pySplitlines code_content true).length 0 0) := by
    rw [chunk_by_lines]
    rw [if_neg h]
    rfl
  refine ⟨_, hres, ?_, ?_⟩
  · intro k
    have hspec := (chunkByLinesGo_spec (pySplitlines code_content true) 40 25
      { file_metadata with
        file_path := normalizeFilePath file_metadata.file_path file_metadata.repo }
      (normalizeFilePath file_metadata.file_path file_metadata.repo)
      (by omega) (by omega) (pySplitlines code_content true).length 0 0 (by omega)).1 k
    rw [hspec]
    constructor <;> intro <;> omega
  · intro k hk
    have hspec := (chunkByLinesGo_spec (pySplitlines code_content true) 40 25
      { file_metadata with
        file_path := normalizeFilePath file_metadata.file_path file_metadata.repo }
      (normalizeFilePath file_metadata.file_path file_metadata.repo)
      (by omega) (by omega) (pySplitlines code_content true).length 0 0 (by omega)).2 k hk
    rw [hspec]
    have e1 : 0 + k * 25 = 25 * k := by ring
    have e2 : 0 + k = k := by ring
    rw [e1, e2]
    refine ⟨rfl, rfl, rfl, rfl, rfl⟩

/-- C9, witness: the 100-line scenario S5 — windows start at 1-based lines
1, 26, 51, 76 and the last window covers lines 76–100. -/
theorem c9_fallback_windows_witness :
    ((chunk_by_lines hundredLines plainMeta 40 15).toOption.map
      (fun l => l.map (fun c => (c.metadata.start_line, c.metadata.end_line))) =
      some [(some 1, some 40), (some 26, some 65), (some 51, some 90), (some 76, some 100)]) ∧
    (∃ l, chunk_by_lines hundredLines plainMeta 40 15 = .ok l ∧
      (∀ k, k < l.length ↔ 25 * k < (pySplitlines hundredLines true).length) ∧
      (∀ k (hk : k < l.length),
        (l.get ⟨k, hk⟩).metadata.start_line = some (25 * k + 1) ∧
        (l.get ⟨k, hk⟩).metadata.end_line =
          some (min (25 * k + 40) (pySplitlines hundredLines true).length) ∧
        (l.get ⟨k, hk⟩).metadata.chunking_method = "line-based".toList ∧
        (l.get ⟨k, hk⟩).metadata.chunk_index = some k ∧
        (l.get ⟨k, hk⟩).content = strJoin (((pySplitlines hundredLines true).drop (25 * k)).take
          (min (25 * k + 40) (pySplitlines hundredLines true).length - 25 * k)))) :=
  ⟨by decide, c9_fallback_windows hundredLines plainMeta (by decide)⟩

theorem rstrip_append_trailing (chars : List Char) (s : Str) :
    pyRstrip chars s ++ (s.reverse.takeWhile (fun c => c ∈ chars)).reverse = s := by
  unfold pyRstrip
  rw [← List.reverse_append]
  rw [List.takeWhile_append_dropWhile]
  exact List.reverse_reverse s

theorem drop_rstrip_length (chars : List Char) (s : Str) :
    s.drop (pyRstrip chars s).length = (s.reverse.takeWhile (fun c => c ∈ chars)).reverse := by
  have h := rstrip_append_trailing chars s
  generalize hA : pyRstrip chars s = A at h ⊢
  generalize hB : (s.reverse.takeWhile (fun c => c ∈ chars)).reverse = B at h ⊢
  rw [← h]
  exact List.drop_left A B

theorem rstrip_self_append (chars : List Char) (s : Str) :
    pyRstrip chars s ++ s.drop (pyRstrip chars s).length = s := by
  rw [drop_rstrip_length]
  exact rstrip_append_trailing chars s

theorem mem_trailing_mem_chars (chars : List Char) (s : Str) :
    ∀ c ∈ s.drop (pyRstrip chars s).length, c ∈ chars := by
  intro c hc
  rw [drop_rstrip_length] at hc
  rw [List.mem_reverse] at hc
  have := List.mem_takeWhile_imp hc
  exact of_decide_eq_true this

theorem head?_dropWhile_neg (p : Char → Bool) (l : List Char) :
    ∀ c, (l.dropWhile p).head? = some c → p c = false := by
  induction l with
  | nil => intro c hc; simp [List.dropWhile] at hc
  | cons a rest ih =>
    intro c hc
    rw [List.dropWhile_cons] at hc
    by_cases hp : p a
    · rw [if_pos hp] at hc
      exact ih c hc
    · rw [if_neg hp] at hc
      simp at hc
      rw [← hc]
      exact Bool.of_not_eq_true hp

theorem rstrip_no_trailing (chars : List Char) (s : Str) :
    ∀ c, (pyRstrip chars s).getLast? = some c → c ∉ chars := by
  intro c hc
  unfold pyRstrip at hc
  rw [List.getLast?_reverse] at hc
  have := head?_dropWhile_neg _ _ _ hc
  simp at this
  exact this

theorem awGo_length (w : Str) (l : List ChunkOut) :
    (adjustWhitespaceGo w l).length = l.length := by
  induction l generalizing w with
  | nil => rfl
  | cons a tail ih =>
    cases tail with
    | nil => rfl
    | cons b rest =>
      simp only [adjustWhitespaceGo, List.length_cons]
      rw [ih]
      simp

theorem awGo_join (w : Str) (l : List ChunkOut) (h : l ≠ []) :
    strJoin ((adjustWhitespaceGo w l).map (fun c => c.content)) =
      w ++ strJoin (l.map (fun c => c.content)) := by
  induction l generalizing w with
  | nil => exact absurd rfl h
  | cons a tail ih =>
    cases tail with
    | nil =>
      simp only [adjustWhitespaceGo, List.map_cons, List.map_nil, strJoin_cons, strJoin_nil]
      simp
    | cons b rest =>
      simp only [adjustWhitespaceGo, List.map_cons, strJoin_cons]
      rw [ih _ (by simp)]
      rw [← List.append_assoc]
      rw [rstrip_self_append]
      simp [strJoin_cons]

theorem awGo_frame (w : Str) (l : List ChunkOut) :
    (adjustWhitespaceGo w l).map eraseContent = l.map eraseContent := by
  induction l generalizing w with
  | nil => rfl
  | cons a tail ih =>
    cases tail with
    | nil => rfl
    | cons b rest =>
      simp only [adjustWhitespaceGo, List.map_cons]
      rw [ih]
      rfl

theorem awGo_prefix (w : Str) (l : List ChunkOut)
    (hw : ∀ c ∈ w, c = ' ' ∨ c = '\t') :
    ∀ i, i + 1 < l.length →
      ∃ w2, (∀ c ∈ w2, c = ' ' ∨ c = '\t') ∧
        strJoin (((adjustWhitespaceGo w l).take (i + 1)).map (fun c => c.content)) ++ w2 =
          w ++ strJoin ((l.take (i + 1)).map (fun c => c.content)) := by
  induction l generalizing w with
  | nil => intro i hi; simp at hi
  | cons a tail ih =>
    cases tail with
    | nil => intro i hi; simp at hi
    | cons b rest =>
      intro i hi
      have hST : ∀ c ∈ (w ++ a.content).drop
          (pyRstrip [' ', '\t'] (w ++ a.content)).length, c = ' ' ∨ c = '\t' := by
        intro c hc
        have := mem_trailing_mem_chars [' ', '\t'] (w ++ a.content) c hc
        simpa using this
      cases i with
      | zero =>
        refine ⟨(w ++ a.content).drop (pyRstrip [' ', '\t'] (w ++ a.content)).length, hST, ?_⟩
        simp only [adjustWhitespaceGo, List.take_succ_cons, List.take_zero, List.map_cons,
          List.map_nil, strJoin_cons, strJoin_nil, List.append_nil]
        rw [rstrip_self_append]
      | succ i =>
        obtain ⟨w2, hw2, heq⟩ := ih ((w ++ a.content).drop
          (pyRstrip [' ', '\t'] (w ++ a.content)).length) hST i (by simpa using hi)
        refine ⟨w2, hw2, ?_⟩
        simp only [adjustWhitespaceGo, List.take_succ_cons, List.map_cons, strJoin_cons]
        rw [List.append_assoc]
        rw [heq]
        rw [← List.append_assoc]
        rw [rstrip_self_append]
        simp [strJoin_cons]

theorem awGo_noTrailing (w : Str) (l : List ChunkOut) :
    ∀ i, i + 1 < l.length → ∀ r, (adjustWhitespaceGo w l).get? i = some r →
      ∀ c, r.content.getLast? = some c → c ≠ ' ' ∧ c ≠ '\t' := by
  induction l generalizing w with
  | nil => intro i hi; simp at hi
  | cons a tail ih =>
    cases tail with
    | nil => intro i hi; simp at hi
    | cons b rest =>
      intro i hi r hr c hc
      cases i with
      | zero =>
        simp only [adjustWhitespaceGo, List.get?_cons_zero, Option.some.injEq] at hr
        rw [← hr] at hc
        simp only [] at hc
        have := rstrip_no_trailing [' ', '\t'] (w ++ a.content) c hc
        simp at this
        exact this
      | succ i =>
        simp only [adjustWhitespaceGo, List.get?_cons_succ] at hr
        exact ih _ i (by simpa using hi) r hr c hc

/-- C3: the whitespace-handoff pass preserves the number of records and the
concatenation of all contents, modifies no component other than `content`,
and at every cut between a non-final record and its successor it moves exactly
a run of spaces and tabs (never newlines) rightward, leaving the non-final
record with no trailing space or tab. -/
theorem c3_whitespace_handoff (l : List ChunkOut) :
    (adjust_whitespace l).length = l.length ∧
    strJoin ((adjust_whitespace l).map (fun c => c.content)) =
      strJoin (l.map (fun c => c.content)) ∧
    (adjust_whitespace l).map eraseContent = l.map eraseContent ∧
    (∀ i, i + 1 < l.length →
      (∃ w2, (∀ c ∈ w2, c = ' ' ∨ c = '\t') ∧
        strJoin (((adjust_whitespace l).take (i + 1)).map (fun c => c.content)) ++ w2 =
          strJoin ((l.take (i + 1)).map (fun c => c.content))) ∧
      (∀ r, (adjust_whitespace l).get? i = some r →
        ∀ c, r.content.getLast? = some c → c ≠ ' ' ∧ c ≠ '\t')) := by
  refine ⟨awGo_length [] l, ?_, awGo_frame [] l, fun i hi => ⟨?_, ?_⟩⟩
  · cases l with
    | nil => rfl
    | cons a tail => exact awGo_join [] (a :: tail) (by simp)
  · obtain ⟨w2, hw2, heq⟩ := awGo_prefix [] l (by simp) i hi
    exact ⟨w2, hw2, by simpa using heq⟩
  · exact awGo_noTrailing [] l i hi

/-- C3, witness: the handoff facts at a concrete two-record list whose first
content ends in a space and a tab. -/
theorem c3_whitespace_handoff_witness :
    (∃ w2, (∀ c ∈ w2, c = ' ' ∨ c = '\t') ∧
      strJoin (((adjust_whitespace lC3).take 1).map (fun c => c.content)) ++ w2 =
        strJoin ((lC3.take 1).map (fun c => c.content))) ∧
    (∀ r, (adjust_whitespace lC3).get? 0 = some r →
      ∀ c, r.content.getLast? = some c → c ≠ ' ' ∧ c ≠ '\t') :=
  (c3_whitespace_handoff lC3).2.2.2 0 (by decide)

theorem IsTiling.append {l1 l2 : List Span} {a m b : Nat}
    (h1 : IsTiling l1 a m) (h2 : IsTiling l2 m b) : IsTiling (l1 ++ l2) a b := by
  induction l1 generalizing a with
  | nil => simpa [IsTiling] using h1 ▸ h2
  | cons s rest ih =>
    obtain ⟨hs, hle, hrest⟩ := h1
    exact ⟨hs, hle, ih hrest⟩

theorem IsTiling.le {l : List Span} {a b : Nat} (h : IsTiling l a b) : a ≤ b := by
  induction l generalizing a with
  | nil => simp [IsTiling] at h; omega
  | cons s rest ih =>
    obtain ⟨hs, hle, hrest⟩ := h
    exact le_trans hle (ih hrest)

theorem IsTiling.bounds {l : List Span} {a b : Nat} (h : IsTiling l a b) :
    ∀ sp ∈ l, a ≤ sp.start ∧ sp.start ≤ sp.stop ∧ sp.stop ≤ b := by
  induction l generalizing a with
  | nil => simp
  | cons s rest ih =>
    obtain ⟨hs, hle, hrest⟩ := h
    intro sp hsp
    rcases List.mem_cons.mp hsp with heq | hmem
    · subst heq
      exact ⟨le_of_eq hs.symm, hs ▸ hle, hrest.le⟩
    · have := ih hrest sp hmem
      omega

theorem IsTiling.pairwise {l : List Span} {a b : Nat} (h : IsTiling l a b) :
    l.Pairwise (fun u v => u.stop ≤ v.start) := by
  induction l generalizing a with
  | nil => exact List.Pairwise.nil
  | cons s rest ih =>
    obtain ⟨hs, hle, hrest⟩ := h
    refine List.Pairwise.cons ?_ (ih hrest)
    intro v hv
    exact (hrest.bounds v hv).1

theorem IsTiling.covers {l : List Span} {a b : Nat} (h : IsTiling l a b) :
    ∀ pos, a ≤ pos → pos < b → ∃ sp ∈ l, sp.start ≤ pos ∧ pos < sp.stop := by
  induction l generalizing a with
  | nil => intro pos h1 h2; simp [IsTiling] at h; omega
  | cons s rest ih =>
    intro pos h1 h2
    obtain ⟨hs, hle, hrest⟩ := h
    by_cases hc : pos < s.stop
    · exact ⟨s, List.mem_cons_self s rest, hs ▸ h1, hc⟩
    · obtain ⟨sp, hmem, hsp⟩ := ih hrest pos (by omega) h2
      exact ⟨sp, List.mem_cons_of_mem s hmem, hsp⟩

theorem node_ind (P : Node → Prop) (h : ∀ n, (∀ c ∈ n.children, P c) → P n) :
    ∀ n, P n
  | n => h n (fun c hc => node_ind P h c)
termination_by n => sizeOf n
decreasing_by exact sizeOf_child_lt hc

theorem nodeWFChildren_mem {bound : Nat} :
    ∀ {l : List Node}, nodeWFChildren bound l = true →
      ∀ c ∈ l, c.endByte ≤ bound ∧ nodeWF c = true := by
  intro l
  induction l with
  | nil => intro _ c hc; cases hc
  | cons a rest ih =>
    intro h c hc
    rw [nodeWFChildren, Bool.and_eq_true, Bool.and_eq_true] at h
    rcases List.mem_cons.mp hc with rfl | hc
    · exact ⟨of_decide_eq_true h.1.1, h.1.2⟩
    · exact ih h.2 c hc

theorem nodeWF_unfold {n : Node} (h : nodeWF n = true) :
    n.startByte ≤ n.endByte ∧ ∀ c ∈ n.children, c.endByte ≤ n.endByte ∧ nodeWF c = true := by
  obtain ⟨t, s, e, nm, f, err, ch⟩ := n
  rw [nodeWF, Bool.and_eq_true] at h
  exact ⟨of_decide_eq_true h.1, nodeWFChildren_mem h.2⟩

theorem mk'_start_le_stop (s e : Nat) : (Span.mk' s e).start ≤ (Span.mk' s e).stop := by
  simp [Span.mk']

theorem ctrChildren_bounds (M bound : Nat) :
    ∀ (children : List Node) (cs ce : Nat) (acc : List Span),
    (∀ c ∈ children, c.startByte ≤ c.endByte ∧ c.endByte ≤ bound ∧
      (∀ sp ∈ chunk_tree_recursive c M, sp.start ≤ sp.stop ∧ sp.stop ≤ c.endByte)) →
    cs ≤ bound → ce ≤ bound →
    (∀ sp ∈ acc, sp.start ≤ sp.stop ∧ sp.stop ≤ bound) →
    (∀ sp ∈ (ctrChildren children M cs ce acc).1, sp.start ≤ sp.stop ∧ sp.stop ≤ bound) ∧
    (ctrChildren children M cs ce acc).2.1 ≤ bound ∧
    (ctrChildren children M cs ce acc).2.2 ≤ bound := by
  intro children
  induction children with
  | nil =>
    intro cs ce acc hch hcs hce hacc
    exact ⟨hacc, hcs, hce⟩
  | cons child rest ih =>
    intro cs ce acc hch hcs hce hacc
    have hchild := hch child (List.mem_cons_self _ _)
    have hrest : ∀ c ∈ rest, c.startByte ≤ c.endByte ∧ c.endByte ≤ bound ∧
        (∀ sp ∈ chunk_tree_recursive c M, sp.start ≤ sp.stop ∧ sp.stop ≤ c.endByte) :=
      fun c hc => hch c (List.mem_cons_of_mem _ hc)
    have hflush : ∀ sp ∈ (if ce > cs then acc ++ [Span.mk' cs ce] else acc),
        sp.start ≤ sp.stop ∧ sp.stop ≤ bound := by
      split
      · intro sp hsp
        rcases List.mem_append.mp hsp with hm | hm
        · exact hacc sp hm
        · simp at hm
          subst hm
          refine ⟨mk'_start_le_stop cs ce, ?_⟩
          simp [Span.mk']
          omega
      · exact hacc
    rw [ctrChildren]
    by_cases h0 : child.endByte - child.startByte = 0
    · rw [if_pos h0]
      exact ih cs ce acc hrest hcs hce hacc
    · rw [if_neg h0]
      by_cases h1 : child.endByte - child.startByte > M
      · rw [if_pos h1]
        refine ih child.endByte child.endByte _ hrest hchild.2.1 hchild.2.1 ?_
        intro sp hsp
        rcases List.mem_append.mp hsp with hm | hm
        · exact hflush sp hm
        · have := hchild.2.2 sp hm
          omega
      · rw [if_neg h1]
        by_cases h2 : child.endByte - cs > M
        · rw [if_pos h2]
          exact ih child.startByte child.endByte _ hrest (by omega) hchild.2.1 hflush
        · rw [if_neg h2]
          refine ih _ (max ce child.endByte) acc hrest ?_ (by omega) hacc
          split
          · omega
          · omega

theorem chunkTree_bounds (M : Nat) : ∀ (n : Node), nodeWF n = true →
    ∀ sp ∈ chunk_tree_recursive n M, sp.start ≤ sp.stop ∧ sp.stop ≤ n.endByte := by
  refine node_ind (fun n => nodeWF n = true →
    ∀ sp ∈ chunk_tree_recursive n M, sp.start ≤ sp.stop ∧ sp.stop ≤ n.endByte) ?_
  intro n ihc hwf
  obtain ⟨hse, hch⟩ := nodeWF_unfold hwf
  obtain ⟨t, s, e, nm, f, err, ch⟩ := n
  simp only [Node.startByte, Node.endByte, Node.children] at hse hch ihc ⊢
  rw [chunk_tree_recursive]
  have hb := ctrChildren_bounds M e ch s s []
    (fun c hc => ⟨(nodeWF_unfold (hch c hc).2).1, (hch c hc).1, ihc c hc (hch c hc).2⟩)
    hse hse (by simp)
  set st := ctrChildren ch M s s [] with hst
  by_cases hfin : e > st.2.1
  · rw [if_pos hfin]
    rcases hlast : st.1.getLast? with _ | lastc
    · dsimp only
      intro sp hsp
      rcases List.mem_append.mp hsp with hm | hm
      · exact hb.1 sp hm
      · simp at hm
        subst hm
        constructor
        · exact mk'_start_le_stop _ _
        · simp [Span.mk']
          omega
    · dsimp only
      by_cases hle : lastc.stop ≤ st.2.1
      · rw [if_pos hle]
        intro sp hsp
        rcases List.mem_append.mp hsp with hm | hm
        · exact hb.1 sp hm
        · simp at hm
          subst hm
          refine ⟨mk'_start_le_stop _ _, ?_⟩
          simp [Span.mk']
          omega
      · rw [if_neg hle]
        by_cases hadj : e > max st.2.1 lastc.stop
        · rw [if_pos hadj]
          intro sp hsp
          rcases List.mem_append.mp hsp with hm | hm
          · exact hb.1 sp hm
          · simp at hm
            subst hm
            refine ⟨mk'_start_le_stop _ _, ?_⟩
            simp [Span.mk']
            omega
        · rw [if_neg hadj]
          exact hb.1
  · rw [if_neg hfin]
    exact hb.1

theorem IsTiling.single {a b : Nat} (h : a ≤ b) : IsTiling [Span.mk' a b] a b := by
  refine ⟨rfl, ?_, ?_⟩
  · simp only [Span.mk']
    omega
  · simp only [IsTiling, Span.mk']
    omega

theorem fillGapsGo_tiling (b : Nat) :
    ∀ (bcs : List Span) (pos : Nat), pos ≤ b →
    (∀ sp ∈ bcs, sp.start ≤ sp.stop ∧ sp.stop ≤ b) →
    IsTiling (fillGapsGo bcs pos).1 pos (fillGapsGo bcs pos).2 ∧
    pos ≤ (fillGapsGo bcs pos).2 ∧ (fillGapsGo bcs pos).2 ≤ b := by
  intro bcs
  induction bcs with
  | nil =>
    intro pos hpos _
    exact ⟨rfl, Nat.le_refl _, hpos⟩
  | cons c rest ih =>
    intro pos hpos hsp
    have hc := hsp c (List.mem_cons_self _ _)
    have hrest := fun sp hm => hsp sp (List.mem_cons_of_mem _ hm)
    rw [fillGapsGo]
    dsimp only
    by_cases hgap : c.start > pos
    · rw [if_pos hgap]
      have hmax : max pos c.start = c.start := by omega
      have hgapTile : IsTiling [Span.mk' pos c.start] pos c.start :=
        IsTiling.single (by omega)
      by_cases hbig : c.stop > max pos c.start
      · rw [if_pos hbig]
        obtain ⟨ih1, ih2, ih3⟩ := ih c.stop (by omega) hrest
        dsimp only
        refine ⟨?_, by omega, ih3⟩
        refine IsTiling.append (IsTiling.append hgapTile ?_) ih1
        have h2 : Span.mk' (max pos c.start) c.stop = Span.mk' c.start c.stop := by rw [hmax]
        rw [h2]
        exact IsTiling.single (by omega)
      · rw [if_neg hbig]
        by_cases hdeg : c.stop = max pos c.start ∧ c.start = c.stop
        · rw [if_pos hdeg]
          obtain ⟨ih1, ih2, ih3⟩ := ih c.stop (by omega) hrest
          dsimp only
          refine ⟨?_, by omega, ih3⟩
          refine IsTiling.append (m := c.start) hgapTile ?_
          rw [hdeg.2]
          exact ih1
        · rw [if_neg hdeg]
          exfalso
          omega
    · rw [if_neg hgap]
      have hmax : max pos c.start = pos := by omega
      by_cases hbig : c.stop > max pos c.start
      · rw [if_pos hbig]
        obtain ⟨ih1, ih2, ih3⟩ := ih c.stop (by omega) hrest
        dsimp only
        refine ⟨?_, by omega, ih3⟩
        simp only [List.nil_append]
        refine IsTiling.append ?_ ih1
        have h2 : Span.mk' (max pos c.start) c.stop = Span.mk' pos c.stop := by rw [hmax]
        rw [h2]
        exact IsTiling.single (by omega)
      · rw [if_neg hbig]
        by_cases hdeg : c.stop = max pos c.start ∧ c.start = c.stop
        · rw [if_pos hdeg]
          obtain ⟨ih1, ih2, ih3⟩ := ih c.stop (by omega) hrest
          dsimp only
          simp only [List.nil_append]
          have hceq : c.stop = pos := by omega
          rw [← hceq]
          exact ⟨ih1, ih2, ih3⟩
        · rw [if_neg hdeg]
          obtain ⟨ih1, ih2, ih3⟩ := ih pos hpos hrest
          dsimp only
          simp only [List.nil_append]
          exact ⟨ih1, ih2, ih3⟩

theorem filledChunks_tiling (rootStart rootEnd : Nat) (bcs : List Span)
    (h1 : rootStart ≤ rootEnd)
    (hsp : ∀ sp ∈ bcs, sp.start ≤ sp.stop ∧ sp.stop ≤ rootEnd) :
    IsTiling (filledChunks rootStart rootEnd bcs) rootStart rootEnd := by
  unfold filledChunks
  dsimp only
  have h := fillGapsGo_tiling rootEnd bcs rootStart h1 hsp
  by_cases hrem : rootEnd > (fillGapsGo bcs rootStart).2
  · rw [if_pos hrem]
    exact IsTiling.append h.1 (IsTiling.single (by omega))
  · rw [if_neg hrem]
    have : (fillGapsGo bcs rootStart).2 = rootEnd := by omega
    rw [List.append_nil]
    rw [← this]
    exact h.1

theorem coalesceGo_tiling (src : Str) (M c : Nat) :
    ∀ (rest : List Span) (cur : Span) (a b : Nat),
    IsTiling (cur :: rest) a b → IsTiling (coalesceGo src M c cur rest) a b := by
  intro rest
  induction rest with
  | nil =>
    intro cur a b h
    exact h
  | cons next rest2 ih =>
    intro cur a b h
    obtain ⟨hs, hle, hnext⟩ := h
    obtain ⟨hns, hnle, hrest⟩ := hnext
    rw [coalesceGo]
    by_cases hcomb : shouldCombine src M c cur next = true
    · rw [if_pos hcomb]
      refine ih (cur.add next) a b ?_
      have hadd : cur.add next = ⟨a, next.stop⟩ := by
        simp only [Span.add]
        rw [Span.mk.injEq]
        omega
      rw [hadd]
      refine ⟨rfl, ?_, hrest⟩
      show a ≤ next.stop
      omega
    · rw [if_neg hcomb]
      exact ⟨hs, hle, ih next cur.stop b ⟨hns, hnle, hrest⟩⟩

theorem coalescedSpans_tiling (root : Node) (src : Str) (M c : Nat)
    (hwf : nodeWF root = true) :
    IsTiling (coalescedSpans root src M c) root.startByte root.endByte := by
  have hse := (nodeWF_unfold hwf).1
  have hbounds := chunkTree_bounds M root hwf
  unfold coalescedSpans
  dsimp only
  by_cases hbc : chunk_tree_recursive root M = []
  · rw [if_pos hbc]
    by_cases hne : root.endByte > root.startByte
    · rw [if_pos hne]
      exact IsTiling.single (by omega)
    · rw [if_neg hne]
      simp only [IsTiling]
      omega
  · rw [if_neg hbc]
    have hfill := filledChunks_tiling root.startByte root.endByte
      (chunk_tree_recursive root M) hse hbounds
    by_cases hempty : filledChunks root.startByte root.endByte
        (chunk_tree_recursive root M) = [] ∧ root.endByte > root.startByte
    · exfalso
      rw [hempty.1] at hfill
      simp only [IsTiling] at hfill
      omega
    · rw [if_neg hempty]
      rcases hfc : filledChunks root.startByte root.endByte
          (chunk_tree_recursive root M) with _ | ⟨first, frest⟩
      · dsimp only
        rw [hfc] at hfill
        exact hfill
      · dsimp only
        rw [hfc] at hfill
        exact coalesceGo_tiling src M c frest first _ _ hfill

theorem create_byte_spans_eq (root : Node) (src : Str) (M c : Nat) :
    create_byte_spans root src M c =
      if chunk_tree_recursive root M = [] then coalescedSpans root src M c
      else (coalescedSpans root src M c).filter (keepSpan src) := by
  unfold create_byte_spans coalescedSpans
  by_cases hbc : chunk_tree_recursive root M = []
  · rw [if_pos hbc, if_pos hbc, if_pos hbc]
  · rw [if_neg hbc, if_neg hbc, if_neg hbc]

/-- C4: for a well-formed parse tree and positive `MAX_CHARS`,
`create_byte_spans` returns spans that are ordered and pairwise
non-overlapping, and every byte of the root range is covered either by a
returned span or by a coalesced span that the whitespace post-filter
discarded because its content has no non-whitespace character. -/
theorem c4_span_tiling (root : Node) (src : Str) (M c : Nat)
    (hwf : nodeWF root = true) (hM : 0 < M) :
    (∀ sp ∈ create_byte_spans root src M c, sp.start ≤ sp.stop) ∧
    (create_byte_spans root src M c).Pairwise (fun u v => u.stop ≤ v.start) ∧
    (∀ pos, root.startByte ≤ pos → pos < root.endByte →
      (∃ sp ∈ create_byte_spans root src M c, sp.start ≤ pos ∧ pos < sp.stop) ∨
      (∃ sp ∈ coalescedSpans root src M c, sp.start ≤ pos ∧ pos < sp.stop ∧
        non_whitespace_len (sp.extract_bytes src) = 0)) := by
  have htile := coalescedSpans_tiling root src M c hwf
  rw [create_byte_spans_eq]
  by_cases hbc : chunk_tree_recursive root M = []
  · rw [if_pos hbc]
    refine ⟨fun sp hsp => (htile.bounds sp hsp).2.1, htile.pairwise, fun pos h1 h2 => ?_⟩
    exact Or.inl (htile.covers pos h1 h2)
  · rw [if_neg hbc]
    refine ⟨?_, htile.pairwise.filter _, fun pos h1 h2 => ?_⟩
    · intro sp hsp
      exact (htile.bounds sp (List.mem_of_mem_filter hsp)).2.1
    · obtain ⟨sp, hmem, hsp1, hsp2⟩ := htile.covers pos h1 h2
      by_cases hkeep : keepSpan src sp
      · exact Or.inl ⟨sp, List.mem_filter.mpr ⟨hmem, hkeep⟩, hsp1, hsp2⟩
      · refine Or.inr ⟨sp, hmem, hsp1, hsp2, ?_⟩
        unfold keepSpan at hkeep
        simp only [Bool.and_eq_true, decide_eq_true_eq, not_and, not_lt] at hkeep
        have hlen : 0 < sp.len := by
          unfold Span.len
          omega
        omega

/-- C4, witness at a concrete well-formed tree. -/
theorem c4_span_tiling_witness :
    (∀ sp ∈ create_byte_spans twoStmtRoot twoStmtSrc 5 100, sp.start ≤ sp.stop) ∧
    (create_byte_spans twoStmtRoot twoStmtSrc 5 100).Pairwise (fun u v => u.stop ≤ v.start) ∧
    (∀ pos, twoStmtRoot.startByte ≤ pos → pos < twoStmtRoot.endByte →
      (∃ sp ∈ create_byte_spans twoStmtRoot twoStmtSrc 5 100, sp.start ≤ pos ∧ pos < sp.stop) ∨
      (∃ sp ∈ coalescedSpans twoStmtRoot twoStmtSrc 5 100, sp.start ≤ pos ∧ pos < sp.stop ∧
        non_whitespace_len (sp.extract_bytes twoStmtSrc) = 0)) :=
  c4_span_tiling twoStmtRoot twoStmtSrc 5 100 (by decide) (by decide)

theorem importBindings_cons (cfg : LanguageConfig) (code : Str) (nd : Node) (nds : List Node) :
    importBindings cfg code (nd :: nds) =
      (if nd.type ∈ cfg.imports then imported_names_in_node nd code else []) ::
        importBindings cfg code nds := rfl

theorem range_map_getD (l : List Str) :
    (List.range l.length).map (fun i => l.getD i []) = l := by
  induction l with
  | nil => rfl
  | cons a t ih =>
    show (List.range (t.length + 1)).map _ = _
    rw [List.range_succ_eq_map]
    simp only [List.map_cons, List.map_map, List.getD_cons_zero, Function.comp_def,
      List.getD_cons_succ, List.cons.injEq, true_and]
    exact ih

theorem importFilter_noWild (used : List Str) (cfg : LanguageConfig) (code : Str) :
    ∀ (nodes : List Node) (lines : List Str), nodes.length = lines.length →
    ((List.range lines.length).filter (fun i =>
        ((importBindings cfg code nodes).getD i []).any (fun nm => decide (nm ∈ used)))).map
      (fun i => lines.getD i []) =
    importFilterSpec used cfg code lines nodes := by
  intro nodes
  induction nodes with
  | nil =>
    intro lines hlen
    match lines with
    | [] => rfl
  | cons nd nds ih =>
    intro lines hlen
    match lines with
    | line :: ls =>
      have hl : nds.length = ls.length := by simpa using hlen
      rw [importBindings_cons]
      show ((List.range (ls.length + 1)).filter _).map _ = _
      rw [List.range_succ_eq_map, List.filter_cons]
      by_cases hb : ((if nd.type ∈ cfg.imports then imported_names_in_node nd code else []).any
          (fun nm => decide (nm ∈ used))) = true
      · rw [if_pos (by simpa using hb)]
        rw [List.map_cons]
        rw [List.filter_map, List.map_map]
        simp only [Function.comp_def, List.getD_cons_succ, List.getD_cons_zero]
        rw [ih ls hl]
        show _ = importFilterSpec used cfg code (line :: ls) (nd :: nds)
        rw [importFilterSpec, if_pos hb]
        rfl
      · rw [if_neg (by simpa using hb)]
        rw [List.filter_map, List.map_map]
        simp only [Function.comp_def, List.getD_cons_succ, List.getD_cons_zero]
        rw [ih ls hl]
        show _ = importFilterSpec used cfg code (line :: ls) (nd :: nds)
        rw [importFilterSpec, if_neg hb]
        rfl

/-- C5: a chunk whose file registers the wildcard sentinel receives every
global import line; otherwise the filter returns exactly the import lines one
of whose bound names occurs among the identifiers of the chunk byte span, in
original file order. -/
theorem c5_import_filter (all_import_lines : List Str) (all_import_nodes : List Node)
    (chunk_byte_span : Nat × Nat) (root : Node) (cfg : LanguageConfig) (code : Str)
    (hlen : all_import_nodes.length = all_import_lines.length) :
    ((∃ b ∈ importBindings cfg code all_import_nodes, '*'::[] ∈ b) →
      filter_imports_for_chunk all_import_lines all_import_nodes chunk_byte_span root cfg code =
        all_import_lines) ∧
    ((¬ ∃ b ∈ importBindings cfg code all_import_nodes, '*'::[] ∈ b) →
      filter_imports_for_chunk all_import_lines all_import_nodes chunk_byte_span root cfg code =
        importFilterSpec
          (find_identifiers_in_span root chunk_byte_span.1 chunk_byte_span.2 cfg code)
          cfg code all_import_lines all_import_nodes) := by
  constructor
  · intro hw
    obtain ⟨b, hbmem, hbstar⟩ := hw
    have hwb : (importBindings cfg code all_import_nodes).any
        (fun b => decide ('*'::[] ∈ b)) = true := by
      rw [List.any_eq_true]
      exact ⟨b, hbmem, decide_eq_true hbstar⟩
    simp only [filter_imports_for_chunk, hwb, if_true, hlen, Nat.max_self]
    have hfull : (List.range all_import_lines.length).filter
        (fun i => decide ('*'::[] ∈ (importBindings cfg code all_import_nodes).getD i []) ||
          decide (i < all_import_lines.length)) = List.range all_import_lines.length := by
      rw [List.filter_eq_self]
      intro i hi
      rw [Bool.or_eq_true]
      exact Or.inr (decide_eq_true (List.mem_range.mp hi))
    rw [hfull, range_map_getD]
  · intro hw
    have hwb : (importBindings cfg code all_import_nodes).any
        (fun b => decide ('*'::[] ∈ b)) = false := by
      rw [List.any_eq_false]
      intro b hbmem
      simp only [decide_eq_true_eq]
      exact fun hmem => hw ⟨b, hbmem, hmem⟩
    simp only [filter_imports_for_chunk, hwb, Bool.false_eq_true, if_false, hlen, Nat.max_self]
    exact importFilter_noWild _ cfg code all_import_nodes all_import_lines hlen

/-- C5, witness: for `impSrc` the chunk `os.path` keeps only `import os`; for
`wildSrc` the wildcard import keeps every import line. -/
theorem c5_import_filter_witness :
    filter_imports_for_chunk [("import os").toList, ("import sys").toList]
        [impNode1, impNode2] (21, 29) impRoot (pythonConfig none) impSrc =
      [("import os").toList] ∧
    filter_imports_for_chunk [("from utils import *").toList] [wildNode] (0, 20) wildRoot
        (pythonConfig none) wildSrc = [("from utils import *").toList] := by
  constructor
  · have h := (c5_import_filter [("import os").toList, ("import sys").toList]
      [impNode1, impNode2] (21, 29) impRoot (pythonConfig none) impSrc (by decide)).2
      (by decide)
    rw [h]
    decide
  · have h := (c5_import_filter [("from utils import *").toList] [wildNode] (0, 20) wildRoot
      (pythonConfig none) wildSrc (by decide)).1
      (by decide)
    rw [h]

/-- C6, counterexample: on scenario S1 the pipeline emits
`relational_description = "Top-level code chunk"`, not the
`"Top-level function_definition \x27greet\x27"` the specification expects
(the refinement tests the content start node, the deepest node at the first
non-whitespace byte, which for S1 is the `import` keyword token). -/
theorem c6_counterexample :
    (match process_code_for_rag s1reg (fun _ => none) s1src ("python".toList) s1meta
        1500 100 with
      | .ok l => l.map (fun (c : ChunkOut) => c.metadata.relational_description)
      | .error _ => []) = [("Top-level code chunk").toList] ∧
    ("Top-level code chunk").toList ≠ ("Top-level function_definition \x27greet\x27").toList := by
  exact ⟨by decide, by decide⟩

/-- C6 (amended): for an assembled chunk whose context walk finds no container
ancestors, the relational description is "Chunk containing primarily imports"
whenever the filtered import list is nonempty (regardless of chunk content);
otherwise the container naming is driven by the content start node (the
deepest node at the chunk\x27s first non-whitespace byte), not by the chunk
itself; otherwise "Top-level code chunk". -/
theorem c6_relational_description (byte_span : Span) (root : Node) (cfg : LanguageConfig)
    (code source : Str) (olines : List Str) (meta : Metadata) (nodes : List Node)
    (ilines : List Str) (lgcel : Int) (idx : Nat) (chainL : List Node) (csn : Node)
    (cd : ChunkOut)
    (hres : assemble_chunk_data byte_span root cfg code source olines meta nodes ilines
      lgcel idx = some cd)
    (hchain : chunkChain byte_span root code = some chainL)
    (hlast : chainL.getLast? = some csn)
    (hanc : (extract_chunk_context (some csn)
        (chainL.reverse.getD
          (definingWalk byte_span.start byte_span.stop cfg.containers chainL.reverse) csn)
        (chainL.reverse.drop
          (definingWalk byte_span.start byte_span.stop cfg.containers chainL.reverse + 1))
        cfg code source lgcel).1 = []) :
    cd.metadata.relational_description =
      if filter_imports_for_chunk ilines nodes (byte_span.start, byte_span.stop) root cfg
          code ≠ [] then
        "Chunk containing primarily imports".toList
      else if csn.type ∈ cfg.containers then
        match (containerNameNode csn).map (fun nn => get_node_text nn code) with
        | some nm =>
          if nm ≠ [] then
            "Top-level ".toList ++ csn.type ++ " \x27".toList ++ nm ++ "\x27".toList
          else "Top-level ".toList ++ csn.type
        | none => "Top-level ".toList ++ csn.type
      else "Top-level code chunk".toList := by
  rw [assemble_chunk_data] at hres
  by_cases hnw : non_whitespace_len (byte_span.extract_bytes code) < 5
  · rw [if_pos hnw] at hres
    exact absurd hres (by simp)
  · rw [if_neg hnw] at hres
    rw [hchain] at hres
    dsimp only at hres
    rw [hlast] at hres
    dsimp only at hres
    rw [hanc] at hres
    have hcd := (Option.some.inj hres).symm
    rw [hcd]
    dsimp only
    rw [refineDescription]
    rw [if_pos (by rfl)]
    split
    · rfl
    · split
      · dsimp only
        split
        · split
          · rfl
          · rfl
        · rfl
      · rfl

/-- C6, witness: the amended description theorem instantiated at scenario S1,
whose content start node is the `import` keyword token, giving
"Top-level code chunk". -/
theorem c6_relational_description_witness :
    (assemble_chunk_data (Span.mk' 0 52) s1root (pythonConfig (some (fun _ => s1root)))
        s1src s1src (pySplitlines s1src false) s1meta
        [mkN "import_statement" 0 9 true none
          [mkN "import" 0 6 false none [],
           mkN "dotted_name" 7 9 true (some "name") [mkN "identifier" 7 9 true none []]]]
        [("import os").toList] (-1) 0).map
      (fun cd => cd.metadata.relational_description) =
      some ("Top-level code chunk".toList) := by
  rcases hr : assemble_chunk_data (Span.mk' 0 52) s1root
      (pythonConfig (some (fun _ => s1root))) s1src s1src (pySplitlines s1src false) s1meta
      [mkN "import_statement" 0 9 true none
        [mkN "import" 0 6 false none [],
         mkN "dotted_name" 7 9 true (some "name") [mkN "identifier" 7 9 true none []]]]
      [("import os").toList] (-1) 0 with _ | cd
  · exact absurd hr (by decide)
  · rw [Option.map_some']
    have h := c6_relational_description (Span.mk' 0 52) s1root
      (pythonConfig (some (fun _ => s1root))) s1src s1src (pySplitlines s1src false) s1meta
      [mkN "import_statement" 0 9 true none
        [mkN "import" 0 6 false none [],
         mkN "dotted_name" 7 9 true (some "name") [mkN "identifier" 7 9 true none []]]]
      [("import os").toList] (-1) 0
      [s1root,
       mkN "import_statement" 0 9 true none
        [mkN "import" 0 6 false none [],
         mkN "dotted_name" 7 9 true (some "name") [mkN "identifier" 7 9 true none []]],
       mkN "import" 0 6 false none []]
      (mkN "import" 0 6 false none []) cd hr (by rfl) (by rfl) (by rfl)
    rw [h]
    decide

/-- The description refinement never changes `chunk_index`. -/
theorem refineDescription_chunk_index (m0 : Metadata) (anc : List Node)
    (fil : List Str) (csn : Node) (cfg : LanguageConfig) (code : Str) :
    (refineDescription m0 anc fil csn cfg code).chunk_index = m0.chunk_index := by
  rw [refineDescription]
  split
  · split
    · rfl
    · split
      · dsimp only
        split
        · split
          · rfl
          · rfl
        · rfl
      · rfl
  · rfl

/-- An assembled chunk record carries exactly the chunk index it was given
(the description refinement leaves `chunk_index` untouched). -/
theorem assemble_chunk_index (byte_span : Span) (root : Node) (cfg : LanguageConfig)
    (code source : Str) (olines : List Str) (meta : Metadata) (nodes : List Node)
    (ilines : List Str) (lgcel : Int) (idx : Nat) (cd : ChunkOut)
    (hres : assemble_chunk_data byte_span root cfg code source olines meta nodes ilines
      lgcel idx = some cd) : cd.metadata.chunk_index = some idx := by
  rw [assemble_chunk_data] at hres
  by_cases hnw : non_whitespace_len (byte_span.extract_bytes code) < 5
  · rw [if_pos hnw] at hres
    exact absurd hres (by simp)
  · rw [if_neg hnw] at hres
    rcases hc : chunkChain byte_span root code with _ | chainL
    · rw [hc] at hres
      exact absurd hres (by simp)
    · rw [hc] at hres
      dsimp only at hres
      rcases hl : chainL.getLast? with _ | csn
      · rw [hl] at hres
        exact absurd hres (by simp)
      · rw [hl] at hres
        dsimp only at hres
        rw [← Option.some.inj hres]
        dsimp only
        rw [refineDescription_chunk_index]

/-- The assembly loop hands out chunk indices consecutively from its start
index, counting only emitted records. -/
theorem assembleLoop_indices (root : Node) (cfg : LanguageConfig)
    (code source : Str) (olines : List Str) (meta : Metadata) (nodes : List Node)
    (ilines : List Str) (lgcel : Int) :
    ∀ (spans : List Span) (k : Nat),
    (assembleLoop spans root cfg code source olines meta nodes ilines lgcel k).map
        (fun c => c.metadata.chunk_index) =
      (List.range' k (assembleLoop spans root cfg code source olines meta nodes ilines
        lgcel k).length).map (fun i => some i) := by
  intro spans
  induction spans with
  | nil => intro k; rfl
  | cons sp rest ih =>
    intro k
    rcases hres : assemble_chunk_data sp root cfg code source olines meta nodes ilines
        lgcel k with _ | cd
    · simp only [assembleLoop, hres]
      exact ih k
    · simp only [assembleLoop, hres, List.map_cons, List.length_cons]
      rw [assemble_chunk_index sp root cfg code source olines meta nodes ilines lgcel k cd hres]
      show _ = (k :: List.range' (k + 1) _).map _
      rw [List.map_cons]
      rw [ih (k + 1)]

/-- The line-window loop hands out chunk indices consecutively from its start
index. -/
theorem chunkByLinesGo_indices (lines : List Str) (tl cs step : Nat) (md : Metadata)
    (np : Str) :
    ∀ (fuel sli k : Nat),
    (chunkByLinesGo lines tl cs step md np fuel sli k).map (fun c => c.metadata.chunk_index) =
      (List.range' k (chunkByLinesGo lines tl cs step md np fuel sli k).length).map
        (fun i => some i) := by
  intro fuel
  induction fuel with
  | zero => intro sli k; rfl
  | succ fuel ih =>
    intro sli k
    rw [chunkByLinesGo]
    by_cases hlt : sli < tl
    · rw [if_pos hlt]
      dsimp only
      split
      · rfl
      · simp only [List.map_cons, List.length_cons]
        show _ = (k :: List.range' (k + 1) _).map _
        rw [List.map_cons]
        rw [ih (sli + step) (k + 1)]
        rfl
    · rw [if_neg hlt]
      rfl

/-- C2 (amended): in tree-sitter mode (after the whitespace handoff) and in
line-based fallback mode, the emitted `chunk_index` values are exactly
`some 0, some 1, ..., some (n-1)` in emission order.  The uniqueness half of
the original claim is refuted by `c2_counterexample`: `chunk_id` collides for
two chunks sharing a 1-based line span. -/
theorem c2_amended_indices :
    (∀ (spans : List Span) (root : Node) (cfg : LanguageConfig) (code source : Str)
       (olines : List Str) (meta : Metadata) (nodes : List Node) (ilines : List Str)
       (lgcel : Int),
      (adjust_whitespace (assembleLoop spans root cfg code source olines meta nodes ilines
          lgcel 0)).map (fun c => c.metadata.chunk_index) =
        (List.range (assembleLoop spans root cfg code source olines meta nodes ilines
          lgcel 0).length).map (fun i => some i)) ∧
    (∀ (code_content : Str) (fmeta : Metadata) (cs ov : Nat),
      ((chunk_by_lines code_content fmeta cs ov).toOption.getD []).map
          (fun c => c.metadata.chunk_index) =
        (List.range ((chunk_by_lines code_content fmeta cs ov).toOption.getD []).length).map
          (fun i => some i)) := by
  constructor
  · intro spans root cfg code source olines meta nodes ilines lgcel
    have hframe := awGo_frame [] (assembleLoop spans root cfg code source olines meta nodes
      ilines lgcel 0)
    have h2 := congrArg (List.map (fun (c : ChunkOut) => c.metadata.chunk_index)) hframe
    simp only [List.map_map] at h2
    have h3 : (adjust_whitespace (assembleLoop spans root cfg code source olines meta nodes
        ilines lgcel 0)).map (fun c => c.metadata.chunk_index) =
        (assembleLoop spans root cfg code source olines meta nodes ilines lgcel 0).map
          (fun c => c.metadata.chunk_index) := h2
    rw [h3, List.range_eq_range']
    exact assembleLoop_indices root cfg code source olines meta nodes ilines lgcel spans 0
  · intro code_content fmeta cs ov
    rw [chunk_by_lines]
    by_cases h1 : code_content = []
    · rw [if_pos h1]; rfl
    · rw [if_neg h1]
      dsimp only
      by_cases h2 : cs = 0
      · rw [if_pos h2]; rfl
      · rw [if_neg h2]
        by_cases h3 : ov ≥ cs
        · rw [if_pos h3]; rfl
        · rw [if_neg h3]
          show (chunkByLinesGo _ _ _ _ _ _ _ _ _).map _ = _
          rw [List.range_eq_range']
          exact chunkByLinesGo_indices _ _ _ _ _ _ _ _ _

/-- C2, counterexample: splitting `aa=11;bb=22` with `max_chars = 5` emits two
chunks, both with `chunk_id = "r/f.py-L1-L1"` (same 1-based line span), so
chunk ids are not pairwise distinct; their indices are `some 0` and `some 1`
as the index half of the claim states. -/
theorem c2_counterexample :
    (match process_code_for_rag twoStmtReg (fun _ => none) twoStmtSrc ("python".toList)
        twoStmtMeta 5 100 with
      | .ok l => l.map (fun (c : ChunkOut) => (c.metadata.chunk_id, c.metadata.chunk_index))
      | .error _ => []) =
      [(("r/f.py-L1-L1").toList, some 0), (("r/f.py-L1-L1").toList, some 1)] ∧
    ¬ List.Nodup [("r/f.py-L1-L1").toList, ("r/f.py-L1-L1").toList] := by
  exact ⟨by decide, by decide⟩

/-- Adjacent slices concatenate. -/
theorem sliceStr_append (code : Str) (a m b : Nat) (h1 : a ≤ m) (h2 : m ≤ b) :
    sliceStr code a m ++ sliceStr code m b = sliceStr code a b := by
  unfold sliceStr
  have hd : code.drop m = (code.drop a).drop (m - a) := by
    rw [List.drop_drop]
    congr 1
    omega
  rw [hd, show b - a = (m - a) + (b - m) by omega, List.take_add]

/-- For an in-range span, `extract_bytes` is the plain slice. -/
theorem extract_eq_slice (sp : Span) (code : Str) (hss : sp.start ≤ sp.stop)
    (hcl : sp.stop ≤ code.length) :
    sp.extract_bytes code = sliceStr code sp.start sp.stop := by
  unfold Span.extract_bytes
  dsimp only
  have h1 : min sp.start code.length = sp.start := by omega
  rw [h1]
  have h2 : max sp.start (min sp.stop code.length) = sp.stop := by omega
  rw [h2]

/-- The non-whitespace count never exceeds the length. -/
theorem nonws_le_length (s : Str) : non_whitespace_len s ≤ s.length :=
  List.length_filter_le _ _

/-- An extracted slice is no longer than the span. -/
theorem extract_length_le (sp : Span) (code : Str) :
    (sp.extract_bytes code).length ≤ sp.stop - sp.start := by
  unfold Span.extract_bytes sliceStr
  simp only [List.length_take, List.length_drop]
  omega

/-- A list with a positive filter count has a first hit, at an in-range
index. -/
theorem findIdx?_of_filter_pos (p : Char → Bool) :
    ∀ (l : List Char), 0 < (l.filter p).length →
    ∃ i, l.findIdx? p = some i ∧ i < l.length := by
  intro l
  induction l with
  | nil => intro h; simp at h
  | cons a t ih =>
    intro h
    by_cases hp : p a = true
    · exact ⟨0, by rw [List.findIdx?_cons, hp]; rfl, by simp⟩
    · rw [List.filter_cons, if_neg hp] at h
      obtain ⟨i, hfind, hlt⟩ := ih h
      refine ⟨i + 1, ?_, by simpa using Nat.succ_lt_succ hlt⟩
      rw [List.findIdx?_cons, if_neg hp, List.findIdx?_succ, hfind]
      rfl

/-- A descendant chain always contains at least the node it starts from. -/
theorem descendantChainFrom_ne_nil (n : Node) (b : Nat) : descendantChainFrom n b ≠ [] := by
  obtain ⟨t, s, e, nm, f, err, ch⟩ := n
  rw [descendantChainFrom]
  exact List.cons_ne_nil _ _

/-- For a span with some non-whitespace content lying inside the root, the
start-node lookup of `assemble_chunk_data` succeeds with a non-empty chain. -/
theorem chunkChain_some (sp : Span) (root : Node) (code : Str)
    (hnw : 0 < non_whitespace_len (sp.extract_bytes code))
    (ha : root.startByte ≤ sp.start) (hb : sp.stop ≤ root.endByte) :
    ∃ chain, chunkChain sp root code = some chain ∧ chain ≠ [] := by
  obtain ⟨i, hfind, hlt⟩ := findIdx?_of_filter_pos (fun ch => !pyIsSpace ch)
    (sp.extract_bytes code) hnw
  have hfo : sp.start + i < sp.stop := by
    have := extract_length_le sp code
    omega
  refine ⟨descendantChainFrom root (sp.start + i), ?_, descendantChainFrom_ne_nil _ _⟩
  rw [chunkChain]
  rw [hfind]
  simp only [Option.map_some']
  rw [descendantChain, if_pos (by omega)]

/-- Spans below the five-non-whitespace-character threshold are dropped. -/
theorem assemble_none_of_small (byte_span : Span) (root : Node) (cfg : LanguageConfig)
    (code source : Str) (olines : List Str) (meta : Metadata) (nodes : List Node)
    (ilines : List Str) (lgcel : Int) (idx : Nat)
    (h : non_whitespace_len (byte_span.extract_bytes code) < 5) :
    assemble_chunk_data byte_span root cfg code source olines meta nodes ilines
      lgcel idx = none := by
  rw [assemble_chunk_data, if_pos h]

/-- A significant in-range span is assembled, and the record content is
exactly the extracted bytes of the span. -/
theorem assemble_content (byte_span : Span) (root : Node) (cfg : LanguageConfig)
    (code source : Str) (olines : List Str) (meta : Metadata) (nodes : List Node)
    (ilines : List Str) (lgcel : Int) (idx : Nat)
    (hnw : ¬ non_whitespace_len (byte_span.extract_bytes code) < 5)
    (ha : root.startByte ≤ byte_span.start) (hb : byte_span.stop ≤ root.endByte) :
    ∃ cd, assemble_chunk_data byte_span root cfg code source olines meta nodes ilines
        lgcel idx = some cd ∧ cd.content = byte_span.extract_bytes code := by
  obtain ⟨chain, hchain, hne⟩ := chunkChain_some byte_span root code (by omega) ha hb
  rcases hgl : chain.getLast? with _ | csn
  · exact absurd (List.getLast?_eq_none.mp hgl) hne
  · rw [assemble_chunk_data, if_neg hnw, hchain]
    dsimp only
    rw [hgl]
    dsimp only
    exact ⟨_, rfl, rfl⟩

/-- Concatenating assembled contents equals concatenating the extracts of the
spans that pass the significance threshold. -/
theorem assembleLoop_join (root : Node) (cfg : LanguageConfig) (code source : Str)
    (olines : List Str) (meta : Metadata) (nodes : List Node) (ilines : List Str)
    (lgcel : Int) :
    ∀ (spans : List Span) (k : Nat),
    (∀ sp ∈ spans, root.startByte ≤ sp.start ∧ sp.stop ≤ root.endByte) →
    strJoin ((assembleLoop spans root cfg code source olines meta nodes ilines lgcel k).map
        (fun cd => cd.content)) =
      strJoin ((spans.filter
          (fun sp => decide (5 ≤ non_whitespace_len (sp.extract_bytes code)))).map
        (fun sp => sp.extract_bytes code)) := by
  intro spans
  induction spans with
  | nil => intro k _; rfl
  | cons sp rest ih =>
    intro k hb
    have hbsp := hb sp (List.mem_cons_self _ _)
    have hbrest : ∀ s ∈ rest, root.startByte ≤ s.start ∧ s.stop ≤ root.endByte :=
      fun s hs => hb s (List.mem_cons_of_mem _ hs)
    rw [List.filter_cons]
    by_cases h5 : non_whitespace_len (sp.extract_bytes code) < 5
    · rw [if_neg (by simpa using by omega : ¬ (decide (5 ≤ non_whitespace_len
        (sp.extract_bytes code)) = true))]
      rw [assembleLoop, assemble_none_of_small sp root cfg code source olines meta nodes
        ilines lgcel k h5]
      exact ih k hbrest
    · rw [if_pos (by simpa using by omega : decide (5 ≤ non_whitespace_len
        (sp.extract_bytes code)) = true)]
      obtain ⟨cd, hcd, hcontent⟩ := assemble_content sp root cfg code source olines meta
        nodes ilines lgcel k h5 hbsp.1 hbsp.2
      rw [assembleLoop, hcd]
      dsimp only
      rw [List.map_cons, List.map_cons, strJoin_cons, strJoin_cons, hcontent,
        ih (k + 1) hbrest]

/-- Concatenating the extracts over a tiling reproduces the covered slice. -/
theorem tiling_join (code : Str) :
    ∀ (l : List Span) (a b : Nat), IsTiling l a b → b ≤ code.length →
    strJoin (l.map (fun sp => sp.extract_bytes code)) = sliceStr code a b := by
  intro l
  induction l with
  | nil =>
    intro a b h hb
    have : a = b := h
    rw [this]
    show ([] : Str) = sliceStr code b b
    unfold sliceStr
    rw [Nat.sub_self, List.take_zero]
  | cons s rest ih =>
    intro a b h hb
    obtain ⟨hs, hle, ht⟩ := h
    have hstop : s.stop ≤ b := ht.le
    rw [List.map_cons, strJoin_cons]
    rw [extract_eq_slice s code (by omega) (by omega)]
    rw [ih s.stop b ht hb]
    rw [hs]
    exact sliceStr_append code a s.stop b (by omega) (by omega)

/-- The whitespace handoff preserves the concatenation of contents. -/
theorem aw_join (l : List ChunkOut) :
    strJoin ((adjust_whitespace l).map (fun cd => cd.content)) =
      strJoin (l.map (fun cd => cd.content)) := by
  cases l with
  | nil => rfl
  | cons a t =>
    rw [adjust_whitespace, awGo_join [] (a :: t) (List.cons_ne_nil _ _)]
    rfl

/-- C1 (amended): in tree-sitter mode, concatenating the emitted contents in
emission order (after the whitespace handoff) reconstructs the original text
PROVIDED every coalesced span carries at least five non-whitespace
characters; spans below that threshold are dropped by `assemble_chunk_data`,
losing their bytes (see `c1_counterexample`). -/
theorem c1_reconstruction (root : Node) (cfg : LanguageConfig) (src : Str)
    (olines : List Str) (meta : Metadata) (nodes : List Node) (ilines : List Str)
    (lgcel : Int) (M c : Nat)
    (hwf : nodeWF root = true) (hstart : root.startByte = 0)
    (hend : root.endByte = src.length)
    (hsig : ∀ sp ∈ coalescedSpans root src M c,
      5 ≤ non_whitespace_len (sp.extract_bytes src)) :
    strJoin ((adjust_whitespace (assembleLoop (create_byte_spans root src M c) root cfg
        src src olines meta nodes ilines lgcel 0)).map (fun cd => cd.content)) = src := by
  have htile := coalescedSpans_tiling root src M c hwf
  have hbounds := htile.bounds
  have hspans : create_byte_spans root src M c = coalescedSpans root src M c := by
    rw [create_byte_spans_eq]
    split
    · rfl
    · rw [List.filter_eq_self]
      intro sp hsp
      have h5 := hsig sp hsp
      have hb := hbounds sp hsp
      have hlen := nonws_le_length (sp.extract_bytes src)
      have hel := extract_length_le sp src
      unfold keepSpan
      rw [Bool.and_eq_true, decide_eq_true_eq, decide_eq_true_eq]
      unfold Span.len
      omega
  rw [aw_join, hspans]
  rw [assembleLoop_join root cfg src src olines meta nodes ilines lgcel
    (coalescedSpans root src M c) 0
    (fun sp hsp => ⟨(hbounds sp hsp).1, (hbounds sp hsp).2.2⟩)]
  rw [List.filter_eq_self.mpr (fun sp hsp => decide_eq_true (hsig sp hsp))]
  rw [tiling_join src _ root.startByte root.endByte htile (by omega)]
  rw [hstart, hend]
  unfold sliceStr
  rw [Nat.sub_zero, List.drop_zero, List.take_length]

/-- C1, counterexample: the file `ab\n` parses, produces one coalesced span,
and that span is dropped by the five-non-whitespace-character threshold, so
the pipeline returns no chunks and the concatenation is empty, not the
original text. -/
theorem c1_counterexample :
    (match process_code_for_rag tinyReg (fun _ => none) tinySrc ("python".toList)
        twoStmtMeta 1500 100 with
      | .ok l => strJoin (l.map (fun (cd : ChunkOut) => cd.content))
      | .error _ => "ERROR".toList) = [] ∧ tinySrc ≠ [] := by
  exact ⟨by decide, by decide⟩

/-- C1, witness: on `aa=11;bb=22` with `max_chars = 5` both spans are
significant and the concatenation reproduces the file. -/
theorem c1_reconstruction_witness :
    strJoin ((adjust_whitespace (assembleLoop
        (create_byte_spans twoStmtRoot twoStmtSrc 5 100) twoStmtRoot (pythonConfig none)
        twoStmtSrc twoStmtSrc (pySplitlines twoStmtSrc false) twoStmtMeta [] [] (-1)
        0)).map (fun cd => cd.content)) = twoStmtSrc :=
  c1_reconstruction twoStmtRoot (pythonConfig none) twoStmtSrc
    (pySplitlines twoStmtSrc false) twoStmtMeta [] [] (-1) 5 100
    (by decide) (by decide) (by decide) (by decide)
